import Mathlib

/-!
# x-monotone boundary of a polygon (`chal::x_monotone_from_polygon`)

A shallow embedding of `src/src/challenge_function.cpp` and `src/include/point.h`.

* Coordinates are exact rationals (`ℚ`) in place of `double`.
* A `std::vector<Point>` is a `List Point`, in storage order.
* The `std::deque<Point>` used as a stack is a `List Point` held tail first:
  the head of the list is `deque.back()`, `push_back p` is `p :: stack` and the
  chain in storage order is `stack.reverse`.
* An access outside a sequence (`v[i]` with `i ≥ size`, `back()` of an empty
  deque, the `std::out_of_range` of `at`) is the fault `Fault.out_of_range`.
* The scan loop of `make_x_monotone` runs on a budget of `points.length` iterations;
  `loop_spec` shows that the budget is never exhausted at the two call sites.

The definitions of the program come first, then the vocabulary of the specification,
then the lemmas and the theorems for the claims.
-/

namespace chal

/-- The value type `chal::Point` of `point.h`: two coordinates. -/
structure Point where
  x : ℚ
  y : ℚ
deriving DecidableEq

/-- Faults of the embedding: an access outside a sequence, and the exhaustion of
the iteration budget given to the scan loop of `make_x_monotone`. -/
inductive Fault where
  | out_of_range
  | out_of_fuel
deriving DecidableEq

/-- The sentinel `invalid_index = size_t(-1)`; no valid index of a vector equals it,
so it is rendered as the absent index. -/
def invalid_index : Option Nat := none

/-- The point reflection `(x, y) ↦ (-x, -y)` applied in `x_monotone_from_polygon`
(`p.x *= -1; p.y *= -1` and `{-i->x, -i->y}`). -/
def negate (p : Point) : Point := ⟨-p.x, -p.y⟩

/-- The scan of `split_into_lower_and_upper_boundary` (lines 18-23): `rest` are the
vertices still to visit, `k` the index of the first of them, and each iterator is
held as its index together with the vertex it points to. -/
def find_extremes : List Point → Nat → Nat × Point → Nat × Point → (Nat × Point) × (Nat × Point)
  | [], _, lowest_left, highest_right => (lowest_left, highest_right)
  | point :: rest, k, lowest_left, highest_right =>
    let lowest_left' :=
      if point.x < lowest_left.2.x ∨ (point.x = lowest_left.2.x ∧ point.y < lowest_left.2.y)
      then (k, point) else lowest_left
    let highest_right' :=
      if point.x > highest_right.2.x ∨ (point.x = highest_right.2.x ∧ point.y > highest_right.2.y)
      then (k, point) else highest_right
    find_extremes rest (k + 1) lowest_left' highest_right'

/-- The half-open iterator range `[first, last)` of a vector, as inserted by
`vector::insert(end, first, last)`. -/
def range (points : List Point) (first last : Nat) : List Point :=
  (points.take last).drop first

/-- The function `split_into_lower_and_upper_boundary` (lines 13-50). It is called
on vectors of size at least 2 only; on the empty vector no vertex is read and both
chains are empty. -/
def split_into_lower_and_upper_boundary (points : List Point) : List Point × List Point :=
  match points with
  | [] => ([], [])
  | p0 :: rest =>
    let ext := find_extremes rest 1 (0, p0) (0, p0)
    let lowest_left := ext.1.1
    let highest_right := ext.2.1
    let distance : Int := (highest_right : Int) - (lowest_left : Int)
    let lower_points :=
      if distance < 0 then
        range points lowest_left points.length ++ range points 0 highest_right
      else
        range points lowest_left highest_right
    let upper_points :=
      if distance > 0 then
        range points highest_right points.length ++ range points 0 lowest_left
      else
        range points highest_right lowest_left
    (lower_points, upper_points)

/-- The function `is_boundary_turning_left` (lines 52-66). `boundary.back()` needs a
non-empty deque and `boundary.at(size-2)` throws when the deque has fewer than two
points (the index `size-2` wraps around and is out of range). -/
def is_boundary_turning_left (point : Point) (boundary : List Point) : Except Fault Bool :=
  match boundary with
  | middle_point :: first_point :: _ =>
    let ax := middle_point.x - first_point.x
    let ay := middle_point.y - first_point.y
    let bx := point.x - first_point.x
    let byy := point.y - first_point.y
    let determinant := ax * byy - ay * bx
    .ok (decide (determinant > 0))
  | _ => .error .out_of_range

/-- The bound `points.size() - 1` of the loop of `find_next_edge_intersecting_x`, in
`size_t`: on the empty vector the subtraction wraps around to `2^64 - 1`. -/
def size_minus_one (points : List Point) : Nat :=
  match points with
  | [] => 2 ^ 64 - 1
  | _ :: rest => rest.length

/-- The loop of `find_next_edge_intersecting_x` (lines 71-76), with `n` the number of
indices left before the bound and `i` the loop index. -/
def find_next_loop (points : List Point) (x : ℚ) : Nat → Nat → Except Fault (Option Nat)
  | 0, _ => .ok invalid_index
  | n + 1, i =>
    match points[i]?, points[i + 1]? with
    | some first, some second =>
      if first.x ≤ x ∧ second.x > x then .ok (some i) else find_next_loop points x n (i + 1)
    | _, _ => .error .out_of_range

/-- The function `find_next_edge_intersecting_x` (lines 68-78). -/
def find_next_edge_intersecting_x (points : List Point) (start : Nat) (x : ℚ) :
    Except Fault (Option Nat) :=
  find_next_loop points x (size_minus_one points - start) start

/-- The function `edge_point_at_x` (lines 80-89). -/
def edge_point_at_x (first second : Point) (x : ℚ) : Point :=
  let vx := second.x - first.x
  if vx = 0 then first
  else
    let vy := second.y - first.y
    let t := (x - first.x) / vx
    ⟨first.x + vx * t, first.y + vy * t⟩

/-- The loop of `remove_edges_to_the_right` (lines 96-102): `stack` is the deque after
the pops made so far, tail first; the result is the final `second` and the deque. -/
def remove_edges_loop : List Point → Point → ℚ → Point × List Point
  | first :: below :: rest, second, x =>
    if first.x ≤ x ∧ second.x > x then (second, first :: below :: rest)
    else remove_edges_loop (below :: rest) first x
  | stack, second, _ => (second, stack)

/-- The function `remove_edges_to_the_right` (lines 91-104): the returned point and
the deque as it is left. `stack.back()` needs a non-empty deque. -/
def remove_edges_to_the_right (stack : List Point) (x : ℚ) : Except Fault (Point × List Point) :=
  match stack with
  | [] => .error .out_of_range
  | second :: rest => .ok (remove_edges_loop rest second x)

/-- The function `skip_boundary_points_to_the_left` (lines 106-127): the returned
index and the deque as it is left. -/
def skip_boundary_points_to_the_left (points : List Point) (i : Nat) (end_point : Point)
    (result : List Point) : Except Fault (Nat × List Point) :=
  match result with
  | [] => .error .out_of_range
  | back :: _ =>
    match find_next_edge_intersecting_x points i back.x with
    | .error e => .error e
    | .ok none =>
      match points[points.length - 1]? with
      | none => .error .out_of_range
      | some last =>
        let new_point := edge_point_at_x last end_point back.x
        if new_point.x ≠ back.x ∨ new_point.y ≠ back.y then
          .ok (points.length, new_point :: result)
        else
          .ok (points.length, result)
    | .ok (some first_edge_point_index) =>
      match points[first_edge_point_index]?, points[first_edge_point_index + 1]? with
      | some first, some second =>
        .ok (first_edge_point_index, edge_point_at_x first second back.x :: result)
      | _, _ => .error .out_of_range

/-- The function `remove_boundary_points_to_the_right` (lines 129-136): the deque as
it is left. -/
def remove_boundary_points_to_the_right (point : Point) (result : List Point) :
    Except Fault (List Point) :=
  match remove_edges_to_the_right result point.x with
  | .error e => .error e
  | .ok (second_edge_point, result') =>
    match result' with
    | [] => .error .out_of_range
    | back :: _ =>
      if point.x ≠ back.x ∨ point.y ≠ back.y then
        .ok (edge_point_at_x back second_edge_point point.x :: result')
      else
        .ok result'

/-- One iteration of the `for` loop of `make_x_monotone` (lines 145-154) at index `i`
with the deque `result` (tail first), followed by the increment `++i`: the index of
the next iteration and the deque as it is left. -/
def make_x_monotone_body (points : List Point) (end_point : Point) (i : Nat)
    (result : List Point) : Except Fault (Nat × List Point) :=
  match points[i]?, result with
  | some point, back :: _ =>
    if point.x ≥ back.x then
      .ok (i + 1, point :: result)
    else
      match is_boundary_turning_left point result with
      | .error e => .error e
      | .ok true =>
        match skip_boundary_points_to_the_left points i end_point result with
        | .error e => .error e
        | .ok (i', result') => .ok (i' + 1, result')
      | .ok false =>
        match remove_boundary_points_to_the_right point result with
        | .error e => .error e
        | .ok result' => .ok (i + 1, point :: result')
  | _, _ => .error .out_of_range

/-- The `for` loop of `make_x_monotone` (lines 144-155) from index `i` with the deque
`result` (tail first). Every iteration uses one unit of fuel. -/
def make_x_monotone_loop (points : List Point) (end_point : Point) :
    Nat → Nat → List Point → Except Fault (List Point)
  | 0, i, result => if i < points.length then .error .out_of_fuel else .ok result
  | fuel + 1, i, result =>
    if i < points.length then
      match make_x_monotone_body points end_point i result with
      | .error e => .error e
      | .ok (i', result') => make_x_monotone_loop points end_point fuel i' result'
    else .ok result

/-- The function `make_x_monotone` (lines 138-158); the deque is returned in storage
order. The loop index grows in every iteration, so `points.length` iterations are
enough. -/
def make_x_monotone (points : List Point) (end_point : Point) : Except Fault (List Point) :=
  match points[0]? with
  | none => .error .out_of_range
  | some p0 =>
    match make_x_monotone_loop points end_point points.length 1 [p0] with
    | .error e => .error e
    | .ok result => .ok result.reverse

/-- The function `x_monotone_from_polygon` (lines 160-182). -/
def x_monotone_from_polygon (points : List Point) : Except Fault (List Point) :=
  if points.length < 2 then .ok points
  else
    let lower_points := (split_into_lower_and_upper_boundary points).1
    let upper_points := (split_into_lower_and_upper_boundary points).2
    match upper_points[0]? with
    | none => .error .out_of_range
    | some upper0 =>
      match make_x_monotone lower_points upper0 with
      | .error e => .error e
      | .ok lower =>
        match lower_points[0]? with
        | none => .error .out_of_range
        | some lower0 =>
          match make_x_monotone (upper_points.map negate) (negate lower0) with
          | .error e => .error e
          | .ok upper => .ok (lower ++ upper.map negate)

/-! ## Specification vocabulary -/

/-- Lexicographic order on `(x, y)`: smaller x, or equal x and not larger y. -/
def lex_le (a b : Point) : Prop := a.x < b.x ∨ (a.x = b.x ∧ a.y ≤ b.y)

instance (a b : Point) : Decidable (lex_le a b) := by unfold lex_le; infer_instance

/-- Index held by the iterator `lowest_left` after the scan of
`split_into_lower_and_upper_boundary`. -/
def lowest_left_index (points : List Point) : Nat :=
  match points with
  | [] => 0
  | p0 :: rest => (find_extremes rest 1 (0, p0) (0, p0)).1.1

/-- Index held by the iterator `highest_right` after the scan of
`split_into_lower_and_upper_boundary`. -/
def highest_right_index (points : List Point) : Nat :=
  match points with
  | [] => 0
  | p0 :: rest => (find_extremes rest 1 (0, p0) (0, p0)).2.1

/-- Some two vertices of the sequence differ. -/
def not_all_identical (points : List Point) : Prop := ∃ p ∈ points, ∃ q ∈ points, p ≠ q

instance (points : List Point) : Decidable (not_all_identical points) := by
  unfold not_all_identical; infer_instance

/-- No edge of `points` with start index in `[i, j)` straddles the vertical line at `x`. -/
def no_straddle (points : List Point) (x : ℚ) (i j : Nat) : Prop :=
  ∀ k, i ≤ k → k < j → ∀ f s, points[k]? = some f → points[k + 1]? = some s →
    ¬ (f.x ≤ x ∧ s.x > x)

/-- The x-coordinates never decrease from first to last element. -/
def x_non_decreasing (l : List Point) : Prop := l.Pairwise (fun a b => a.x ≤ b.x)

/-- The x-coordinates never increase from first to last element. -/
def x_non_increasing (l : List Point) : Prop := l.Pairwise (fun a b => b.x ≤ a.x)

/-- The x-coordinates strictly increase from first to last element. -/
def x_strictly_increasing (l : List Point) : Prop := l.Pairwise (fun a b => a.x < b.x)

/-- The x-coordinates strictly decrease from first to last element. -/
def x_strictly_decreasing (l : List Point) : Prop := l.Pairwise (fun a b => b.x < a.x)

instance (l : List Point) : Decidable (x_non_decreasing l) := by
  unfold x_non_decreasing; infer_instance

instance (l : List Point) : Decidable (x_non_increasing l) := by
  unfold x_non_increasing; infer_instance

instance (l : List Point) : Decidable (x_strictly_increasing l) := by
  unfold x_strictly_increasing; infer_instance

instance (l : List Point) : Decidable (x_strictly_decreasing l) := by
  unfold x_strictly_decreasing; infer_instance

/-- The pair `(a, b)` is an edge of the polygon: two cyclically consecutive vertices. -/
def is_polygon_edge (points : List Point) (a b : Point) : Prop :=
  ∃ j, j < points.length ∧ points[j]? = some a ∧ points[(j + 1) % points.length]? = some b

/-- No two adjacent points of the sequence are coordinate-identical. -/
def no_adjacent_duplicates (l : List Point) : Prop := l.Chain' (fun a b => a ≠ b)

/-- No two cyclically consecutive vertices of the polygon are equal. -/
def no_cyclic_duplicates (points : List Point) : Prop :=
  ∀ j, j < points.length → points[j]? ≠ points[(j + 1) % points.length]?

instance (points : List Point) : Decidable (no_cyclic_duplicates points) := by
  unfold no_cyclic_duplicates; infer_instance

/-- The point `q` lies on the closed straight segment from `a` to `b`: it is
`a + t (b - a)` for an interpolation parameter `t` in `[0, 1]`. -/
def on_segment (a b q : Point) : Prop :=
  ∃ t : ℚ, 0 ≤ t ∧ t ≤ 1 ∧ q.x = a.x + t * (b.x - a.x) ∧ q.y = a.y + t * (b.y - a.y)

/-- The points `a`, `b`, `q` are collinear: the cross product of `b - a` and `q - a`
vanishes. -/
def collinear (a b q : Point) : Prop :=
  (b.x - a.x) * (q.y - a.y) - (b.y - a.y) * (q.x - a.x) = 0

/-- The pair `(a, b)` is an edge of the directed chain `points` closed by `end_point`:
two consecutive vertices of the chain, or the last vertex and the closing point. -/
def is_chain_edge (points : List Point) (end_point a b : Point) : Prop :=
  (∃ j, points[j]? = some a ∧ points[j + 1]? = some b) ∨
    (points.getLast? = some a ∧ b = end_point)

/-- The point `q` lies on an edge of the closed chain. -/
def on_chain_edge (points : List Point) (end_point q : Point) : Prop :=
  ∃ a b, is_chain_edge points end_point a b ∧ on_segment a b q

/-- The points `p` and `q` lie on one common edge of the closed chain. -/
def same_chain_edge (points : List Point) (end_point p q : Point) : Prop :=
  ∃ a b, is_chain_edge points end_point a b ∧ on_segment a b p ∧ on_segment a b q

/-- Precondition under which `x_monotone_from_polygon` calls `make_x_monotone`: the
chain starts at `p0`, no vertex lies left of `p0` and none right of the closing point. -/
structure chain_ok (points : List Point) (end_point p0 : Point) : Prop where
  first : points[0]? = some p0
  min : ∀ p ∈ points, p0.x ≤ p.x
  max : ∀ p ∈ points, p.x ≤ end_point.x

/-- Invariant of the scan loop of `make_x_monotone` before the iteration at index `i`,
on the deque `result` held tail first. -/
structure loop_inv (points : List Point) (end_point p0 : Point) (i : Nat)
    (result : List Point) : Prop where
  last : result.getLast? = some p0
  sorted : result.Pairwise (fun a b => b.x ≤ a.x)
  ge_min : ∀ r ∈ result, p0.x ≤ r.x
  le_max : ∀ r ∈ result, r.x ≤ end_point.x
  on_edge : ∀ r ∈ result, on_chain_edge points end_point r
  adj : result.Chain' (fun b a => a.x < b.x → same_chain_edge points end_point a b)
  next : ∀ back pt, result.head? = some back → points[i]? = some pt →
    same_chain_edge points end_point back pt

/-- The edge of `points` that starts at index `j` straddles the vertical line at `x`:
`points[j].x <= x < points[j+1].x` (the test of line 74). -/
def straddles (points : List Point) (x : ℚ) (j : Nat) : Prop :=
  ∃ f s, points[j]? = some f ∧ points[j + 1]? = some s ∧ f.x ≤ x ∧ x < s.x

/-- The states of the scan of `make_x_monotone`: the loop index and the deque (tail
first) at the loop head, from the initial state `(1, [points[0]])` through completed
iterations of the loop body. -/
inductive scan_reaches (points : List Point) (end_point : Point) : Nat → List Point → Prop where
  | init (p0 : Point) (h : points[0]? = some p0) : scan_reaches points end_point 1 [p0]
  | step (i j : Nat) (result result' : List Point)
      (hprev : scan_reaches points end_point i result) (hi : i < points.length)
      (hbody : make_x_monotone_body points end_point i result = .ok (j, result')) :
      scan_reaches points end_point j result'

/-- A division that faults on a zero divisor. -/
def checked_div (a b : ℚ) : Option ℚ := if b = 0 then none else some (a / b)

/-- The function `edge_point_at_x` (lines 80-89) with its division made fallible: the
result is absent when line 87 divides by zero. -/
def edge_point_at_x_checked (first second : Point) (x : ℚ) : Option Point :=
  let vx := second.x - first.x
  if vx = 0 then some first
  else
    let vy := second.y - first.y
    match checked_div (x - first.x) vx with
    | none => none
    | some t => some ⟨first.x + vx * t, first.y + vy * t⟩

/-- Every state of the scan of `make_x_monotone` is safe: the front of the deque is
still the point `first`; the iteration at a loop index inside the chain completes
without an access out of range; and whenever the vertex at the loop index lies left of
the tail (the only case in which `is_boundary_turning_left` and
`remove_edges_to_the_right` are called) the deque holds at least 2 points,
`is_boundary_turning_left` returns, and `remove_edges_to_the_right`, called when the
answer is no, returns and leaves a non-empty deque. -/
def guarded_scan (points : List Point) (end_point first : Point) : Prop :=
  ∀ i result, scan_reaches points end_point i result →
    result.getLast? = some first ∧
    (i < points.length →
      ∃ j result', make_x_monotone_body points end_point i result = .ok (j, result')) ∧
    (∀ pt back, points[i]? = some pt → result.head? = some back → pt.x < back.x →
      2 ≤ result.length ∧
      (∃ b, is_boundary_turning_left pt result = .ok b) ∧
      (is_boundary_turning_left pt result = .ok false →
        ∃ s f rest, remove_edges_to_the_right result pt.x = .ok (s, f :: rest)))

/-! ## The split at the extreme vertices -/

theorem lex_le_refl (a : Point) : lex_le a a := Or.inr ⟨rfl, le_refl _⟩

theorem lex_le_trans {a b c : Point} (h1 : lex_le a b) (h2 : lex_le b c) : lex_le a c := by
  unfold lex_le at *
  rcases h1 with h1 | ⟨h1, h1'⟩ <;> rcases h2 with h2 | ⟨h2, h2'⟩
  · exact Or.inl (lt_trans h1 h2)
  · exact Or.inl (h2 ▸ h1)
  · exact Or.inl (h1 ▸ h2)
  · exact Or.inr ⟨h1.trans h2, le_trans h1' h2'⟩

theorem lex_le_antisymm {a b : Point} (h1 : lex_le a b) (h2 : lex_le b a) : a = b := by
  unfold lex_le at *
  cases a; cases b
  simp only [Point.mk.injEq] at *
  rcases h1 with h1 | ⟨h1, h1'⟩ <;> rcases h2 with h2 | ⟨h2, h2'⟩
  · exact absurd h1 (not_lt.mpr (le_of_lt h2))
  · exact absurd h1 (by rw [h2]; exact lt_irrefl _)
  · exact absurd h2 (by rw [h1]; exact lt_irrefl _)
  · exact ⟨h1, le_antisymm h1' h2'⟩

theorem lex_le_of_not {a b : Point} (h : ¬ (a.x < b.x ∨ (a.x = b.x ∧ a.y < b.y))) : lex_le b a := by
  unfold lex_le
  push_neg at h
  rcases lt_trichotomy a.x b.x with h1 | h1 | h1
  · exact absurd h1 (not_lt.mpr h.1)
  · exact Or.inr ⟨h1.symm, h.2 h1⟩
  · exact Or.inl h1

/-- Invariant of the scan: after the vertices `pre` the two iterators point into `pre`
at its lexicographic minimum and maximum; so they do after `pre ++ rest`. -/
theorem find_extremes_spec : ∀ (rest pre : List Point) (ll hr : Nat × Point),
    pre[ll.1]? = some ll.2 → pre[hr.1]? = some hr.2 →
    (∀ p ∈ pre, lex_le ll.2 p) → (∀ p ∈ pre, lex_le p hr.2) →
    (pre ++ rest)[(find_extremes rest pre.length ll hr).1.1]?
        = some (find_extremes rest pre.length ll hr).1.2 ∧
    (pre ++ rest)[(find_extremes rest pre.length ll hr).2.1]?
        = some (find_extremes rest pre.length ll hr).2.2 ∧
    (∀ p ∈ pre ++ rest, lex_le (find_extremes rest pre.length ll hr).1.2 p) ∧
    (∀ p ∈ pre ++ rest, lex_le p (find_extremes rest pre.length ll hr).2.2) := by
  intro rest
  induction rest with
  | nil =>
    intro pre ll hr h1 h2 h3 h4
    simpa [find_extremes] using ⟨h1, h2, h3, h4⟩
  | cons p rest ih =>
    intro pre ll hr h1 h2 h3 h4
    have hlen : (pre ++ [p]).length = pre.length + 1 := by simp
    have happ : pre ++ p :: rest = (pre ++ [p]) ++ rest := by simp
    rw [find_extremes, happ, ← hlen]
    apply ih
    · split
      · simp
      · rw [List.getElem?_append_left]; exact h1
        exact (List.getElem?_eq_some.mp h1).1
    · split
      · simp
      · rw [List.getElem?_append_left]; exact h2
        exact (List.getElem?_eq_some.mp h2).1
    · intro q hq
      rw [List.mem_append, List.mem_singleton] at hq
      split
      · rename_i hc
        have hp : lex_le p ll.2 := by
          rcases hc with hc | ⟨hc, hc'⟩
          · exact Or.inl hc
          · exact Or.inr ⟨hc, le_of_lt hc'⟩
        rcases hq with hq | hq
        · exact lex_le_trans hp (h3 q hq)
        · subst hq; exact lex_le_refl _
      · rename_i hc
        rcases hq with hq | hq
        · exact h3 q hq
        · subst hq; exact lex_le_of_not hc
    · intro q hq
      rw [List.mem_append, List.mem_singleton] at hq
      split
      · rename_i hc
        have hp : lex_le hr.2 p := by
          rcases hc with hc | ⟨hc, hc'⟩
          · exact Or.inl hc
          · exact Or.inr ⟨hc.symm, le_of_lt hc'⟩
        rcases hq with hq | hq
        · exact lex_le_trans (h4 q hq) hp
        · subst hq; exact lex_le_refl _
      · rename_i hc
        rcases hq with hq | hq
        · exact h4 q hq
        · subst hq
          apply lex_le_of_not
          intro h
          apply hc
          rcases h with h | ⟨h, h'⟩
          · exact Or.inl h
          · exact Or.inr ⟨h.symm, h'⟩

/-- The two iterators end on vertices of the input that are its lexicographic minimum
and maximum. -/
theorem extremes_spec (points : List Point) (hne : points ≠ []) :
    ∃ l0 u0, points[lowest_left_index points]? = some l0 ∧
      points[highest_right_index points]? = some u0 ∧
      (∀ p ∈ points, lex_le l0 p) ∧ (∀ p ∈ points, lex_le p u0) := by
  cases points with
  | nil => exact absurd rfl hne
  | cons p0 rest =>
    have h := find_extremes_spec rest [p0] (0, p0) (0, p0) rfl rfl
      (by intro p hp; rw [List.mem_singleton] at hp; subst hp; exact lex_le_refl _)
      (by intro p hp; rw [List.mem_singleton] at hp; subst hp; exact lex_le_refl _)
    exact ⟨_, _, h.1, h.2.1, h.2.2.1, h.2.2.2⟩

/-- The two chains in terms of the two final indices. -/
theorem split_eq (points : List Point) (hne : points ≠ []) :
    split_into_lower_and_upper_boundary points =
      (if highest_right_index points < lowest_left_index points then
          points.drop (lowest_left_index points) ++ points.take (highest_right_index points)
        else (points.take (highest_right_index points)).drop (lowest_left_index points),
       if lowest_left_index points < highest_right_index points then
          points.drop (highest_right_index points) ++ points.take (lowest_left_index points)
        else (points.take (lowest_left_index points)).drop (highest_right_index points)) := by
  cases points with
  | nil => exact absurd rfl hne
  | cons p0 rest =>
    simp only [split_into_lower_and_upper_boundary, lowest_left_index, highest_right_index, range,
      List.take_length, List.drop_zero, sub_neg, sub_pos, Nat.cast_lt]

/-- The two iterators end on different indices unless all vertices are identical. -/
theorem extremes_ne (points : List Point) (h : not_all_identical points) :
    lowest_left_index points ≠ highest_right_index points := by
  obtain ⟨p, hp, q, hq, hpq⟩ := h
  have hne : points ≠ [] := List.ne_nil_of_mem hp
  obtain ⟨l0, u0, hl, hu, hmin, hmax⟩ := extremes_spec points hne
  intro heq
  rw [heq, hu] at hl
  have hlu : u0 = l0 := Option.some.inj hl
  rw [← hlu] at hmin
  apply hpq
  have h1 : p = u0 := lex_le_antisymm (hmax p hp) (hmin p hp)
  have h2 : q = u0 := lex_le_antisymm (hmax q hq) (hmin q hq)
  rw [h1, h2]

/-- The chains concatenate to the rotation at the lowest-left index, and each starts
at its extreme vertex. -/
theorem split_rotate (points : List Point) (h : not_all_identical points) :
    (split_into_lower_and_upper_boundary points).1 ++ (split_into_lower_and_upper_boundary points).2
      = points.rotate (lowest_left_index points) ∧
    (split_into_lower_and_upper_boundary points).1.head? = points[lowest_left_index points]? ∧
    (split_into_lower_and_upper_boundary points).2.head? = points[highest_right_index points]? := by
  have hne : points ≠ [] := by
    obtain ⟨p, hp, _⟩ := h; exact List.ne_nil_of_mem hp
  obtain ⟨l0, u0, hl, hu, -, -⟩ := extremes_spec points hne
  have hll := (List.getElem?_eq_some.mp hl).1
  have hhr := (List.getElem?_eq_some.mp hu).1
  have hd := extremes_ne points h
  rw [split_eq points hne]
  rw [List.rotate_eq_drop_append_take (le_of_lt hll)]
  clear hl hu
  generalize lowest_left_index points = ll at *
  generalize highest_right_index points = hr at *
  rcases lt_or_gt_of_ne hd with hlt | hgt
  · have hn : ¬ hr < ll := not_lt.mpr (le_of_lt hlt)
    simp only [hn, hlt, if_true, if_false]
    refine ⟨?_, ?_, ?_⟩
    · rw [← List.append_assoc]
      congr 1
      have hsplit : List.drop ll (List.take hr points ++ List.drop hr points)
          = List.drop ll (List.take hr points) ++ List.drop hr points := by
        rw [List.drop_append_of_le_length]
        rw [List.length_take]; omega
      rw [List.take_append_drop] at hsplit
      exact hsplit.symm
    · rw [List.head?_drop, List.getElem?_take, if_pos hlt]
    · rw [List.head?_append_of_ne_nil, List.head?_drop]
      intro hnil
      rw [List.drop_eq_nil_iff] at hnil; omega
  · have hn : ¬ ll < hr := not_lt.mpr (le_of_lt hgt)
    simp only [hn, hgt, if_true, if_false]
    refine ⟨?_, ?_, ?_⟩
    · rw [List.append_assoc]
      congr 1
      have : List.take hr points = List.take hr (List.take ll points) := by
        rw [List.take_take, min_eq_left (le_of_lt hgt)]
      rw [this, List.take_append_drop]
    · rw [List.head?_append_of_ne_nil, List.head?_drop]
      intro hnil
      rw [List.drop_eq_nil_iff] at hnil; omega
    · rw [List.head?_drop, List.getElem?_take, if_pos hgt]

/-! ## Segments and `edge_point_at_x` -/

theorem on_segment_left (a b : Point) : on_segment a b a :=
  ⟨0, le_refl _, zero_le_one, by ring, by ring⟩

theorem on_segment_right (a b : Point) : on_segment a b b :=
  ⟨1, zero_le_one, le_refl _, by ring, by ring⟩

theorem on_segment_collinear {a b q : Point} (h : on_segment a b q) : collinear a b q := by
  obtain ⟨t, -, -, hx, hy⟩ := h
  unfold collinear
  rw [hx, hy]; ring

/-- A point between two points of a segment lies on that segment. -/
theorem on_segment_convex {a b p q r : Point} (hp : on_segment a b p) (hq : on_segment a b q)
    (hr : on_segment p q r) : on_segment a b r := by
  obtain ⟨tp, hp0, hp1, hpx, hpy⟩ := hp
  obtain ⟨tq, hq0, hq1, hqx, hqy⟩ := hq
  obtain ⟨s, hs0, hs1, hrx, hry⟩ := hr
  refine ⟨(1 - s) * tp + s * tq, ?_, ?_, ?_, ?_⟩
  · have h1 : 0 ≤ (1 - s) * tp := mul_nonneg (by linarith) hp0
    have h2 : 0 ≤ s * tq := mul_nonneg hs0 hq0
    linarith
  · have h1 : (1 - s) * tp ≤ (1 - s) * 1 := mul_le_mul_of_nonneg_left hp1 (by linarith)
    have h2 : s * tq ≤ s * 1 := mul_le_mul_of_nonneg_left hq1 hs0
    linarith
  · rw [hrx, hpx, hqx]; ring
  · rw [hry, hpy, hqy]; ring

theorem on_segment_negate {a b q : Point} (h : on_segment (negate a) (negate b) q) :
    on_segment a b (negate q) := by
  obtain ⟨t, h0, h1, hx, hy⟩ := h
  refine ⟨t, h0, h1, ?_, ?_⟩
  · simp only [negate] at *; rw [hx]; ring
  · simp only [negate] at *; rw [hy]; ring

/-- On an edge of non-zero x-extent the interpolated point has x-coordinate `x`. -/
theorem edge_point_x {first second : Point} (x : ℚ) (h : first.x ≠ second.x) :
    (edge_point_at_x first second x).x = x := by
  have hv : second.x - first.x ≠ 0 := sub_ne_zero.mpr (Ne.symm h)
  simp only [edge_point_at_x, hv, if_false]
  field_simp

theorem edge_point_vertical {first second : Point} (x : ℚ) (h : second.x = first.x) :
    edge_point_at_x first second x = first := by
  simp [edge_point_at_x, h]

/-- For `x` within the x-range of a non-vertical edge the interpolated point lies on
the edge. -/
theorem edge_point_on_segment {first second : Point} {x : ℚ} (h1 : first.x ≤ x)
    (h2 : x ≤ second.x) (h : first.x < second.x) :
    on_segment first second (edge_point_at_x first second x) := by
  have hv : second.x - first.x ≠ 0 := sub_ne_zero.mpr (ne_of_gt h)
  have hpos : 0 < second.x - first.x := sub_pos.mpr h
  refine ⟨(x - first.x) / (second.x - first.x), ?_, ?_, ?_, ?_⟩
  · exact div_nonneg (by linarith) (le_of_lt hpos)
  · rw [div_le_one hpos]; linarith
  · simp only [edge_point_at_x, hv, if_false]; ring
  · simp only [edge_point_at_x, hv, if_false]; ring

theorem edge_point_at_start {first second : Point} (h : first.x < second.x) :
    edge_point_at_x first second first.x = first := by
  have hv : second.x - first.x ≠ 0 := sub_ne_zero.mpr (ne_of_gt h)
  simp [edge_point_at_x, hv]

/-! ## The two search loops -/

/-- The search loop finds the first straddling edge at or after `i`, or reports that
none of the `n` edges it may visit straddles; it reads inside the vector. -/
theorem find_next_loop_spec (points : List Point) (x : ℚ) : ∀ n i,
    (n ≠ 0 → i + n < points.length) →
    (∃ j f s, find_next_loop points x n i = .ok (some j) ∧ i ≤ j ∧ j < i + n ∧
        points[j]? = some f ∧ points[j + 1]? = some s ∧ f.x ≤ x ∧ x < s.x ∧
        no_straddle points x i j) ∨
    (find_next_loop points x n i = .ok none ∧ no_straddle points x i (i + n)) := by
  intro n
  induction n with
  | zero =>
    intro i _
    right
    refine ⟨rfl, ?_⟩
    intro k h1 h2; omega
  | succ n ih =>
    intro i hb
    have hb' : i + (n + 1) < points.length := hb (Nat.succ_ne_zero n)
    have hi : i < points.length := by omega
    have hi1 : i + 1 < points.length := by omega
    rw [find_next_loop, List.getElem?_eq_getElem hi, List.getElem?_eq_getElem hi1]
    simp only
    by_cases hc : points[i].x ≤ x ∧ points[i + 1].x > x
    · left
      refine ⟨i, points[i], points[i + 1], by rw [if_pos hc], le_refl _, by omega,
        List.getElem?_eq_getElem hi, List.getElem?_eq_getElem hi1, hc.1, hc.2, ?_⟩
      intro k h1 h2; omega
    · rw [if_neg hc]
      have hstep : no_straddle points x i (i + 1) := by
        intro k h1 h2 f s hf hs
        have hk : k = i := by omega
        subst hk
        rw [List.getElem?_eq_getElem hi] at hf
        rw [List.getElem?_eq_getElem hi1] at hs
        cases hf; cases hs
        exact hc
      rcases ih (i + 1) (by intro _; omega) with ⟨j, f, s, h1, h2, h3, h4, h5, h6, h7, h8⟩ | ⟨h1, h2⟩
      · left
        refine ⟨j, f, s, h1, by omega, by omega, h4, h5, h6, h7, ?_⟩
        intro k hk1 hk2
        by_cases hk : k < i + 1
        · exact hstep k hk1 hk
        · exact h8 k (by omega) hk2
      · right
        refine ⟨h1, ?_⟩
        intro k hk1 hk2
        by_cases hk : k < i + 1
        · exact hstep k hk1 hk
        · exact h2 k (by omega) (by omega)

/-- On a non-empty vector `find_next_edge_intersecting_x` returns the first
straddling edge from `start` on, or the sentinel when there is none. -/
theorem find_next_spec (points : List Point) (x : ℚ) (start : Nat) (hne : points ≠ []) :
    (∃ j f s, find_next_edge_intersecting_x points start x = .ok (some j) ∧ start ≤ j ∧
        j + 1 < points.length ∧
        points[j]? = some f ∧ points[j + 1]? = some s ∧ f.x ≤ x ∧ x < s.x ∧
        no_straddle points x start j) ∨
    (find_next_edge_intersecting_x points start x = .ok none ∧
        no_straddle points x start (points.length - 1)) := by
  have hsz : size_minus_one points = points.length - 1 := by
    cases points with
    | nil => exact absurd rfl hne
    | cons a l => simp [size_minus_one]
  have hlen : 0 < points.length := List.length_pos.mpr hne
  unfold find_next_edge_intersecting_x
  rw [hsz]
  rcases find_next_loop_spec points x (points.length - 1 - start) start (by intro h; omega) with
    ⟨j, f, s, h1, h2, h3, h4, h5, h6, h7, h8⟩ | ⟨h1, h2⟩
  · left
    exact ⟨j, f, s, h1, h2, by omega, h4, h5, h6, h7, h8⟩
  · right
    refine ⟨h1, ?_⟩
    intro k hk1 hk2
    exact h2 k hk1 (by omega)

/-- When no edge from index `i` on straddles the line at `x` and vertex `i` is not right
of it, no later vertex is right of it. -/
theorem no_straddle_le (points : List Point) (x : ℚ) (i : Nat)
    (h : no_straddle points x i (points.length - 1)) (pi : Point) (hpi : points[i]? = some pi)
    (hle : pi.x ≤ x) : ∀ k, i ≤ k → ∀ pk, points[k]? = some pk → pk.x ≤ x := by
  intro k hk
  induction k, hk using Nat.le_induction with
  | base =>
    intro pk hpk
    rw [hpi] at hpk; cases hpk; exact hle
  | succ k hk ih =>
    intro pk hpk
    have hk1 : k + 1 < points.length := (List.getElem?_eq_some.mp hpk).1
    have hk0 : k < points.length := by omega
    have h1 := ih points[k] (List.getElem?_eq_getElem hk0)
    have h2 := h k hk (by omega) points[k] pk (List.getElem?_eq_getElem hk0) hpk
    by_contra hcon
    exact h2 ⟨h1, not_le.mp hcon⟩

/-- The pop loop on a deque whose first point is not right of `x`: it leaves a
non-empty suffix whose tail `back` has `back.x ≤ x`, and returns the point that sat
right above `back`, which is right of `x`. -/
theorem remove_edges_loop_spec (x : ℚ) (p0 : Point) (h0 : p0.x ≤ x) :
    ∀ (stack : List Point) (second : Point), stack.getLast? = some p0 → x < second.x →
    ∃ s2 back rest, remove_edges_loop stack second x = (s2, back :: rest) ∧
      (s2 :: back :: rest) <:+ (second :: stack) ∧ back.x ≤ x ∧ x < s2.x := by
  intro stack
  induction stack with
  | nil => intro second h; simp at h
  | cons first tl ih =>
    intro second hlast hx
    cases tl with
    | nil =>
      simp only [List.getLast?_singleton, Option.some.injEq] at hlast
      subst hlast
      exact ⟨second, first, [], by simp [remove_edges_loop], List.suffix_refl _, h0, hx⟩
    | cons below rest =>
      rw [remove_edges_loop]
      by_cases hc : first.x ≤ x ∧ second.x > x
      · rw [if_pos hc]
        exact ⟨second, first, below :: rest, rfl, List.suffix_refl _, hc.1, hx⟩
      · rw [if_neg hc]
        have hfx : x < first.x := by
          by_contra hcon
          exact hc ⟨not_lt.mp hcon, hx⟩
        have hlast' : (below :: rest).getLast? = some p0 := by
          rw [← hlast]; simp [List.getLast?_cons_cons]
        obtain ⟨s2, back, r, h1, h2, h3, h4⟩ := ih first hlast' hfx
        exact ⟨s2, back, r, h1, h2.trans (List.suffix_cons _ _), h3, h4⟩

/-! ## The invariant of the scan loop -/

theorem suffix_getLast? {l1 l2 : List Point} (h : l1 <:+ l2) (hne : l1 ≠ []) :
    l1.getLast? = l2.getLast? := by
  obtain ⟨t, rfl⟩ := h
  cases l1 with
  | nil => exact absurd rfl hne
  | cons a l => rw [List.getLast?_append_cons]

theorem chain_vertex_on_edge (points : List Point) (end_point : Point) {i : Nat} {pt : Point}
    (hpt : points[i]? = some pt) : on_chain_edge points end_point pt := by
  have hi : i < points.length := (List.getElem?_eq_some.mp hpt).1
  by_cases h : i + 1 < points.length
  · exact ⟨pt, points[i + 1], Or.inl ⟨i, hpt, List.getElem?_eq_getElem h⟩, on_segment_left _ _⟩
  · refine ⟨pt, end_point, Or.inr ⟨?_, rfl⟩, on_segment_left _ _⟩
    rw [List.getLast?_eq_getElem?, ← hpt]
    congr 1; omega

theorem chain_edge_next (points : List Point) (end_point : Point) {i : Nat} {a b : Point}
    (ha : points[i]? = some a) (hb : points[i + 1]? = some b) :
    same_chain_edge points end_point a b :=
  ⟨a, b, Or.inl ⟨i, ha, hb⟩, on_segment_left _ _, on_segment_right _ _⟩

/-- The invariant holds when the loop is entered. -/
theorem loop_inv_init {points : List Point} {end_point p0 : Point}
    (hc : chain_ok points end_point p0) : loop_inv points end_point p0 1 [p0] := by
  have hmem : p0 ∈ points := List.getElem?_mem hc.first
  refine ⟨rfl, List.pairwise_singleton _ _, ?_, ?_, ?_, List.chain'_singleton _, ?_⟩
  · intro r hr; rw [List.mem_singleton] at hr; subst hr; exact le_refl _
  · intro r hr; rw [List.mem_singleton] at hr; subst hr; exact hc.max _ hmem
  · intro r hr; rw [List.mem_singleton] at hr; subst hr
    exact chain_vertex_on_edge points end_point hc.first
  · intro back pt hb hpt
    simp only [List.head?_cons, Option.some.injEq] at hb
    subst hb
    exact chain_edge_next points end_point hc.first hpt

theorem loop_inv_head_max {points : List Point} {end_point p0 : Point} {i : Nat}
    {back : Point} {tl : List Point} (inv : loop_inv points end_point p0 i (back :: tl)) :
    ∀ r ∈ back :: tl, r.x ≤ back.x := by
  intro r hr
  rcases List.mem_cons.mp hr with h | h
  · rw [h]
  · exact (List.pairwise_cons.mp inv.sorted).1 r h

/-- Pushing a point that is not left of the tail keeps the invariant. -/
theorem loop_inv_push {points : List Point} {end_point p0 : Point} {i : Nat}
    {back : Point} {tl : List Point} (inv : loop_inv points end_point p0 i (back :: tl))
    (q : Point) (j : Nat) (hge : back.x ≤ q.x) (hmax : q.x ≤ end_point.x)
    (hon : on_chain_edge points end_point q)
    (hadj : back.x < q.x → same_chain_edge points end_point back q)
    (hnext : ∀ pt, points[j]? = some pt → same_chain_edge points end_point q pt) :
    loop_inv points end_point p0 j (q :: back :: tl) := by
  refine ⟨?_, ?_, ?_, ?_, ?_, ?_, ?_⟩
  · rw [List.getLast?_cons_cons]; exact inv.last
  · exact List.pairwise_cons.mpr
      ⟨fun r hr => le_trans (loop_inv_head_max inv r hr) hge, inv.sorted⟩
  · intro r hr
    rcases List.mem_cons.mp hr with h | h
    · rw [h]; exact le_trans (inv.ge_min back (List.mem_cons_self _ _)) hge
    · exact inv.ge_min r h
  · intro r hr
    rcases List.mem_cons.mp hr with h | h
    · rw [h]; exact hmax
    · exact inv.le_max r h
  · intro r hr
    rcases List.mem_cons.mp hr with h | h
    · rw [h]; exact hon
    · exact inv.on_edge r h
  · exact List.Chain'.cons hadj inv.adj
  · intro b pt hb hpt
    simp only [List.head?_cons, Option.some.injEq] at hb
    subst hb
    exact hnext pt hpt

/-- Popping points keeps the invariant. -/
theorem loop_inv_suffix {points : List Point} {end_point p0 : Point} {i : Nat}
    {result : List Point} (inv : loop_inv points end_point p0 i result)
    {back : Point} {rest : List Point} (h : (back :: rest) <:+ result) :
    loop_inv points end_point p0 points.length (back :: rest) := by
  refine ⟨?_, inv.sorted.sublist h.sublist, fun r hr => inv.ge_min r (h.subset hr),
    fun r hr => inv.le_max r (h.subset hr), fun r hr => inv.on_edge r (h.subset hr),
    inv.adj.suffix h, ?_⟩
  · rw [suffix_getLast? h (List.cons_ne_nil _ _)]; exact inv.last
  · intro b pt _ hpt
    have := (List.getElem?_eq_some.mp hpt).1
    omega

theorem loop_inv_reindex {points : List Point} {end_point p0 : Point} {i : Nat}
    {result : List Point} (inv : loop_inv points end_point p0 i result) (j : Nat)
    (hj : points.length ≤ j) : loop_inv points end_point p0 j result := by
  refine ⟨inv.last, inv.sorted, inv.ge_min, inv.le_max, inv.on_edge, inv.adj, ?_⟩
  intro b pt _ hpt
  have := (List.getElem?_eq_some.mp hpt).1
  omega

/-- Case A (line 148): the vertex is pushed. -/
theorem case_A {points : List Point} {end_point p0 : Point} {i : Nat}
    {back pt : Point} {tl : List Point} (hc : chain_ok points end_point p0)
    (inv : loop_inv points end_point p0 i (back :: tl))
    (hpt : points[i]? = some pt) (hge : back.x ≤ pt.x) :
    loop_inv points end_point p0 (i + 1) (pt :: back :: tl) :=
  loop_inv_push inv pt (i + 1) hge (hc.max _ (List.getElem?_mem hpt))
    (chain_vertex_on_edge points end_point hpt) (fun _ => inv.next back pt rfl hpt)
    (fun _ hq => chain_edge_next points end_point hpt hq)

/-- Case B (line 150): `skip_boundary_points_to_the_left` returns, its index is not
below `i`, and the invariant holds at the next index. -/
theorem case_B {points : List Point} {end_point p0 : Point} {i : Nat}
    {back pt : Point} {tl : List Point} (hc : chain_ok points end_point p0)
    (inv : loop_inv points end_point p0 i (back :: tl))
    (hpt : points[i]? = some pt) (hlt : pt.x < back.x) :
    ∃ j result', skip_boundary_points_to_the_left points i end_point (back :: tl)
        = .ok (j, result') ∧ i ≤ j ∧ loop_inv points end_point p0 (j + 1) result' := by
  have hne : points ≠ [] := List.ne_nil_of_mem (List.getElem?_mem hpt)
  have hbmax : back.x ≤ end_point.x := inv.le_max back (List.mem_cons_self _ _)
  unfold skip_boundary_points_to_the_left
  simp only
  rcases find_next_spec points back.x i hne with
    ⟨j, f, s, h1, h2, h3, h4, h5, h6, h7, -⟩ | ⟨h1, h2⟩
  · rw [h1]
    simp only [h4, h5]
    refine ⟨j, _, rfl, h2, ?_⟩
    have hfs : f.x < s.x := lt_of_le_of_lt h6 h7
    have hx : (edge_point_at_x f s back.x).x = back.x := edge_point_x _ (ne_of_lt hfs)
    have hseg : on_segment f s (edge_point_at_x f s back.x) :=
      edge_point_on_segment h6 (le_of_lt h7) hfs
    refine loop_inv_push inv _ (j + 1) (le_of_eq hx.symm) (by rw [hx]; exact hbmax)
      ⟨f, s, Or.inl ⟨j, h4, h5⟩, hseg⟩ (fun h => absurd h (by rw [hx]; exact lt_irrefl _)) ?_
    intro q hq
    rw [h5] at hq
    cases hq
    exact ⟨f, s, Or.inl ⟨j, h4, h5⟩, hseg, on_segment_right _ _⟩
  · rw [h1]
    have hlen : points.length - 1 < points.length :=
      Nat.sub_lt (List.length_pos.mpr hne) Nat.one_pos
    have hlast : points[points.length - 1]? = some points[points.length - 1] :=
      List.getElem?_eq_getElem hlen
    simp only [hlast]
    have hi : i < points.length := (List.getElem?_eq_some.mp hpt).1
    have hlx : (points[points.length - 1]).x ≤ back.x :=
      no_straddle_le points back.x i h2 pt hpt (le_of_lt hlt) (points.length - 1) (by omega)
        _ hlast
    have hlmax : (points[points.length - 1]).x ≤ end_point.x :=
      hc.max _ (List.getElem?_mem hlast)
    have hedge : is_chain_edge points end_point points[points.length - 1] end_point :=
      Or.inr ⟨by rw [List.getLast?_eq_getElem?, hlast], rfl⟩
    have hx : (edge_point_at_x points[points.length - 1] end_point back.x).x = back.x := by
      by_cases hv : end_point.x = (points[points.length - 1]).x
      · rw [edge_point_vertical _ hv]
        exact le_antisymm hlx (hv ▸ hbmax)
      · exact edge_point_x _ (Ne.symm hv)
    have hon : on_chain_edge points end_point
        (edge_point_at_x points[points.length - 1] end_point back.x) := by
      by_cases hv : end_point.x = (points[points.length - 1]).x
      · rw [edge_point_vertical _ hv]
        exact ⟨_, _, hedge, on_segment_left _ _⟩
      · exact ⟨_, _, hedge, edge_point_on_segment hlx hbmax
          (lt_of_le_of_ne hlmax (Ne.symm hv))⟩
    split
    · refine ⟨points.length, _, rfl, le_of_lt hi, ?_⟩
      refine loop_inv_push inv _ _ (le_of_eq hx.symm) (by rw [hx]; exact hbmax) hon
        (fun h => absurd h (by rw [hx]; exact lt_irrefl _)) ?_
      intro q hq
      have := (List.getElem?_eq_some.mp hq).1
      omega
    · exact ⟨points.length, _, rfl, le_of_lt hi, loop_inv_reindex inv _ (by omega)⟩

/-- Case C (lines 152-153): `remove_boundary_points_to_the_right` returns and the
invariant holds after the push of the vertex. -/
theorem case_C {points : List Point} {end_point p0 : Point} {i : Nat}
    {back first pt : Point} {rest : List Point} (hc : chain_ok points end_point p0)
    (inv : loop_inv points end_point p0 i (back :: first :: rest))
    (hpt : points[i]? = some pt) (hlt : pt.x < back.x) :
    ∃ result', remove_boundary_points_to_the_right pt (back :: first :: rest) = .ok result' ∧
      loop_inv points end_point p0 (i + 1) (pt :: result') := by
  have hmem : pt ∈ points := List.getElem?_mem hpt
  have hlast : (first :: rest).getLast? = some p0 := by
    rw [← inv.last, List.getLast?_cons_cons]
  obtain ⟨s2, b, r, heq, hsuf, hbx, hsx⟩ :=
    remove_edges_loop_spec pt.x p0 (hc.min pt hmem) (first :: rest) back hlast hlt
  have hsuf' : (b :: r) <:+ (back :: first :: rest) := (List.suffix_cons s2 _).trans hsuf
  have inv_s := loop_inv_suffix inv hsuf'
  have hadj := (List.chain'_cons.mp (inv.adj.suffix hsuf)).1
  obtain ⟨ea, eb, hedge, hb1, hs1⟩ := hadj (lt_of_le_of_lt hbx hsx)
  have hbs : b.x < s2.x := lt_of_le_of_lt hbx hsx
  have hx : (edge_point_at_x b s2 pt.x).x = pt.x := edge_point_x _ (ne_of_lt hbs)
  have hseg : on_segment ea eb (edge_point_at_x b s2 pt.x) :=
    on_segment_convex hb1 hs1 (edge_point_on_segment hbx (le_of_lt hsx) hbs)
  have hptmax : pt.x ≤ end_point.x := hc.max pt hmem
  have hpton := chain_vertex_on_edge points end_point hpt
  have hnext : ∀ q, points[i + 1]? = some q → same_chain_edge points end_point pt q :=
    fun _ hq => chain_edge_next points end_point hpt hq
  unfold remove_boundary_points_to_the_right remove_edges_to_the_right
  simp only [heq]
  split
  · refine ⟨_, rfl, ?_⟩
    have inv1 : loop_inv points end_point p0 points.length (edge_point_at_x b s2 pt.x :: b :: r) :=
      loop_inv_push inv_s _ _ (by rw [hx]; exact hbx) (by rw [hx]; exact hptmax)
        ⟨ea, eb, hedge, hseg⟩ (fun _ => ⟨ea, eb, hedge, hb1, hseg⟩)
        (fun q hq => by have := (List.getElem?_eq_some.mp hq).1; omega)
    exact loop_inv_push inv1 pt (i + 1) (le_of_eq hx) hptmax hpton
      (fun h => absurd h (by rw [hx]; exact lt_irrefl _)) hnext
  · rename_i hcond
    push_neg at hcond
    refine ⟨_, rfl, ?_⟩
    exact loop_inv_push inv_s pt (i + 1) (le_of_eq hcond.1.symm) hptmax hpton
      (fun h => absurd h (by rw [hcond.1]; exact lt_irrefl _)) hnext

/-- One iteration under the invariant: it returns, the index grows, the invariant
holds again. -/
theorem body_spec {points : List Point} {end_point p0 : Point} {i : Nat}
    {result : List Point} (hc : chain_ok points end_point p0)
    (inv : loop_inv points end_point p0 i result) (hi : i < points.length) :
    ∃ j result', make_x_monotone_body points end_point i result = .ok (j, result') ∧ i < j ∧
      loop_inv points end_point p0 j result' := by
  have hpt : points[i]? = some points[i] := List.getElem?_eq_getElem hi
  cases result with
  | nil => have := inv.last; simp at this
  | cons back tl =>
    unfold make_x_monotone_body
    simp only [hpt]
    by_cases hge : points[i].x ≥ back.x
    · rw [if_pos hge]
      exact ⟨_, _, rfl, Nat.lt_succ_self i, case_A hc inv hpt hge⟩
    · rw [if_neg hge]
      have hlt : points[i].x < back.x := not_le.mp hge
      cases tl with
      | nil =>
        have h0 := inv.last
        simp only [List.getLast?_singleton, Option.some.injEq] at h0
        have := hc.min _ (List.getElem?_mem hpt)
        rw [h0] at hlt
        exact absurd hlt (not_lt.mpr this)
      | cons first rest =>
        simp only [is_boundary_turning_left]
        split
        · rename_i e heq; cases heq
        · obtain ⟨j, result', h1, h2, h3⟩ := case_B hc inv hpt hlt
          rw [h1]
          exact ⟨_, _, rfl, Nat.lt_succ_of_le h2, h3⟩
        · obtain ⟨result', h1, h2⟩ := case_C hc inv hpt hlt
          rw [h1]
          exact ⟨_, _, rfl, Nat.lt_succ_self i, h2⟩

/-- The loop under the invariant returns within its budget, with the invariant. -/
theorem loop_spec {points : List Point} {end_point p0 : Point}
    (hc : chain_ok points end_point p0) : ∀ (fuel i : Nat) (result : List Point),
    points.length ≤ fuel + i → loop_inv points end_point p0 i result →
    ∃ out j, make_x_monotone_loop points end_point fuel i result = .ok out ∧
      loop_inv points end_point p0 j out := by
  intro fuel
  induction fuel with
  | zero =>
    intro i result hf inv
    have hn : ¬ i < points.length := by omega
    exact ⟨result, i, by simp [make_x_monotone_loop, hn], inv⟩
  | succ fuel ih =>
    intro i result hf inv
    by_cases hi : i < points.length
    · obtain ⟨j, result', h1, h2, h3⟩ := body_spec hc inv hi
      obtain ⟨out, k, h4, h5⟩ := ih j result' (by omega) h3
      refine ⟨out, k, ?_, h5⟩
      rw [make_x_monotone_loop, if_pos hi, h1]
      exact h4
    · exact ⟨result, i, by simp [make_x_monotone_loop, hi], inv⟩

/-- Under the precondition of its two call sites, `make_x_monotone` returns a chain that
starts at the first vertex, has non-decreasing x, stays within the x-range of the
closed chain and consists of points on edges of the closed chain. -/
theorem make_x_monotone_spec {points : List Point} {end_point p0 : Point}
    (hc : chain_ok points end_point p0) :
    ∃ out, make_x_monotone points end_point = .ok out ∧ out.head? = some p0 ∧
      out.Pairwise (fun a b => a.x ≤ b.x) ∧
      (∀ r ∈ out, p0.x ≤ r.x ∧ r.x ≤ end_point.x) ∧
      (∀ r ∈ out, on_chain_edge points end_point r) := by
  obtain ⟨out, j, h1, inv⟩ := loop_spec hc points.length 1 [p0] (by omega) (loop_inv_init hc)
  refine ⟨out.reverse, ?_, ?_, ?_, ?_, ?_⟩
  · simp only [make_x_monotone, hc.first, h1]
  · rw [List.head?_reverse]; exact inv.last
  · rw [List.pairwise_reverse]; exact inv.sorted
  · intro r hr
    rw [List.mem_reverse] at hr
    exact ⟨inv.ge_min r hr, inv.le_max r hr⟩
  · intro r hr
    rw [List.mem_reverse] at hr
    exact inv.on_edge r hr

/-! ## From chain edges to polygon edges -/

/-- The edges of a rotation of the polygon are edges of the polygon. -/
theorem polygon_edge_rotate {points : List Point} {k : Nat} {a b : Point}
    (h : is_polygon_edge (points.rotate k) a b) : is_polygon_edge points a b := by
  obtain ⟨j, hj, ha, hb⟩ := h
  rw [List.length_rotate] at hj hb
  have hn : 0 < points.length := by omega
  have hj1 : (j + 1) % points.length < points.length := Nat.mod_lt _ hn
  rw [List.getElem?_rotate hj] at ha
  rw [List.getElem?_rotate hj1] at hb
  refine ⟨(j + k) % points.length, Nat.mod_lt _ hn, ha, ?_⟩
  rw [← hb]
  congr 1
  rw [Nat.mod_add_mod, Nat.mod_add_mod]
  congr 1
  omega

/-- The edges of the lower chain closed by the first upper vertex are edges of
`lower ++ upper`. -/
theorem lower_edge_polygon {lower upper : List Point} {u0 a b : Point}
    (hu : upper.head? = some u0) (h : is_chain_edge lower u0 a b) :
    is_polygon_edge (lower ++ upper) a b := by
  have hune : upper ≠ [] := by intro h0; rw [h0] at hu; simp at hu
  have hul : 0 < upper.length := List.length_pos.mpr hune
  rcases h with ⟨j, ha, hb⟩ | ⟨ha, hb⟩
  · have hj1 : j + 1 < lower.length := (List.getElem?_eq_some.mp hb).1
    refine ⟨j, by rw [List.length_append]; omega, ?_, ?_⟩
    · rw [List.getElem?_append_left (by omega)]; exact ha
    · rw [Nat.mod_eq_of_lt (by rw [List.length_append]; omega),
        List.getElem?_append_left hj1]; exact hb
  · have hlne : lower ≠ [] := by intro h0; rw [h0] at ha; simp at ha
    have hll : 0 < lower.length := List.length_pos.mpr hlne
    rw [List.getLast?_eq_getElem?] at ha
    refine ⟨lower.length - 1, by rw [List.length_append]; omega, ?_, ?_⟩
    · rw [List.getElem?_append_left (by omega)]; exact ha
    · have he : lower.length - 1 + 1 = lower.length := by omega
      rw [he, Nat.mod_eq_of_lt (by rw [List.length_append]; omega),
        List.getElem?_append_right (le_refl _), Nat.sub_self, hb, ← hu, List.head?_eq_getElem?]

/-- The edges of the upper chain closed by the first lower vertex are edges of
`lower ++ upper`. -/
theorem upper_edge_polygon {lower upper : List Point} {l0 a b : Point}
    (hl : lower.head? = some l0) (h : is_chain_edge upper l0 a b) :
    is_polygon_edge (lower ++ upper) a b := by
  have hlne : lower ≠ [] := by intro h0; rw [h0] at hl; simp at hl
  have hll : 0 < lower.length := List.length_pos.mpr hlne
  rcases h with ⟨j, ha, hb⟩ | ⟨ha, hb⟩
  · have hj1 : j + 1 < upper.length := (List.getElem?_eq_some.mp hb).1
    refine ⟨lower.length + j, by rw [List.length_append]; omega, ?_, ?_⟩
    · rw [List.getElem?_append_right (by omega), Nat.add_sub_cancel_left]; exact ha
    · rw [Nat.mod_eq_of_lt (by rw [List.length_append]; omega),
        List.getElem?_append_right (by omega)]
      have he : lower.length + j + 1 - lower.length = j + 1 := by omega
      rw [he]; exact hb
  · have hune : upper ≠ [] := by intro h0; rw [h0] at ha; simp at ha
    have hul : 0 < upper.length := List.length_pos.mpr hune
    rw [List.getLast?_eq_getElem?] at ha
    refine ⟨lower.length + upper.length - 1, by rw [List.length_append]; omega, ?_, ?_⟩
    · rw [List.getElem?_append_right (by omega)]
      have he : lower.length + upper.length - 1 - lower.length = upper.length - 1 := by omega
      rw [he]; exact ha
    · have he : lower.length + upper.length - 1 + 1 = (lower ++ upper).length := by
        rw [List.length_append]; omega
      rw [he, Nat.mod_self, List.getElem?_append_left hll, hb, ← hl, List.head?_eq_getElem?]

/-- The edges of the negated chain are the negated edges of the chain. -/
theorem chain_edge_negate {upper : List Point} {l0 a b : Point}
    (h : is_chain_edge (upper.map negate) (negate l0) a b) :
    ∃ a' b', a = negate a' ∧ b = negate b' ∧ is_chain_edge upper l0 a' b' := by
  rcases h with ⟨j, ha, hb⟩ | ⟨ha, hb⟩
  · rw [List.getElem?_map, Option.map_eq_some'] at ha hb
    obtain ⟨a', ha1, ha2⟩ := ha
    obtain ⟨b', hb1, hb2⟩ := hb
    exact ⟨a', b', ha2.symm, hb2.symm, Or.inl ⟨j, ha1, hb1⟩⟩
  · rw [List.getLast?_eq_getElem?, List.getElem?_map, Option.map_eq_some'] at ha
    obtain ⟨a', ha1, ha2⟩ := ha
    rw [List.length_map] at ha1
    exact ⟨a', l0, ha2.symm, hb, Or.inr ⟨by rw [List.getLast?_eq_getElem?]; exact ha1, rfl⟩⟩

theorem negate_negate (p : Point) : negate (negate p) = p := by
  cases p; simp [negate]

theorem lex_le_x {a b : Point} (h : lex_le a b) : a.x ≤ b.x := by
  rcases h with h | ⟨h, _⟩
  · exact le_of_lt h
  · exact le_of_eq h

theorem mem_split_left {points : List Point} (hn : not_all_identical points) {p : Point}
    (hp : p ∈ (split_into_lower_and_upper_boundary points).1) : p ∈ points := by
  have h := (split_rotate points hn).1
  have : p ∈ (split_into_lower_and_upper_boundary points).1 ++
      (split_into_lower_and_upper_boundary points).2 := List.mem_append_left _ hp
  rw [h, List.mem_rotate] at this
  exact this

theorem mem_split_right {points : List Point} (hn : not_all_identical points) {p : Point}
    (hp : p ∈ (split_into_lower_and_upper_boundary points).2) : p ∈ points := by
  have h := (split_rotate points hn).1
  have : p ∈ (split_into_lower_and_upper_boundary points).1 ++
      (split_into_lower_and_upper_boundary points).2 := List.mem_append_right _ hp
  rw [h, List.mem_rotate] at this
  exact this

/-- On a polygon whose vertices are not all identical both calls of `make_x_monotone`
meet the precondition `chain_ok`, both return, and the output is the concatenation. -/
theorem polygon_spec (points : List Point) (h2 : 2 ≤ points.length)
    (hn : not_all_identical points) :
    ∃ l0 u0 L U,
      (split_into_lower_and_upper_boundary points).1.head? = some l0 ∧
      (split_into_lower_and_upper_boundary points).2.head? = some u0 ∧
      points[lowest_left_index points]? = some l0 ∧
      points[highest_right_index points]? = some u0 ∧
      (∀ p ∈ points, lex_le l0 p) ∧ (∀ p ∈ points, lex_le p u0) ∧
      chain_ok (split_into_lower_and_upper_boundary points).1 u0 l0 ∧
      chain_ok ((split_into_lower_and_upper_boundary points).2.map negate) (negate l0)
        (negate u0) ∧
      make_x_monotone (split_into_lower_and_upper_boundary points).1 u0 = .ok L ∧
      make_x_monotone ((split_into_lower_and_upper_boundary points).2.map negate) (negate l0)
        = .ok U ∧
      x_monotone_from_polygon points = .ok (L ++ U.map negate) := by
  have hne : points ≠ [] := by intro h; rw [h] at h2; simp at h2
  obtain ⟨l0, u0, hl, hu, hmin, hmax⟩ := extremes_spec points hne
  obtain ⟨-, hlh, huh⟩ := split_rotate points hn
  rw [hl] at hlh
  rw [hu] at huh
  have hc1 : chain_ok (split_into_lower_and_upper_boundary points).1 u0 l0 := by
    refine ⟨by rw [← List.head?_eq_getElem?]; exact hlh, ?_, ?_⟩
    · intro p hp; exact lex_le_x (hmin p (mem_split_left hn hp))
    · intro p hp; exact lex_le_x (hmax p (mem_split_left hn hp))
  have hc2 : chain_ok ((split_into_lower_and_upper_boundary points).2.map negate) (negate l0)
      (negate u0) := by
    refine ⟨?_, ?_, ?_⟩
    · rw [← List.head?_eq_getElem?, List.head?_map, huh]; rfl
    · intro p hp
      obtain ⟨q, hq, rfl⟩ := List.mem_map.mp hp
      have := lex_le_x (hmax q (mem_split_right hn hq))
      simp only [negate]; linarith
    · intro p hp
      obtain ⟨q, hq, rfl⟩ := List.mem_map.mp hp
      have := lex_le_x (hmin q (mem_split_right hn hq))
      simp only [negate]; linarith
  obtain ⟨L, hL, -⟩ := make_x_monotone_spec hc1
  obtain ⟨U, hU, -⟩ := make_x_monotone_spec hc2
  refine ⟨l0, u0, L, U, hlh, huh, hl, hu, hmin, hmax, hc1, hc2, hL, hU, ?_⟩
  have hlt : ¬ points.length < 2 := by omega
  rw [List.head?_eq_getElem?] at hlh huh
  simp only [x_monotone_from_polygon, hlt, if_false, hlh, huh, hL, hU]

/-! ## The claims -/

theorem negate_map_non_increasing {U : List Point} (h : x_non_decreasing U) :
    x_non_increasing (U.map negate) := by
  unfold x_non_increasing
  rw [List.pairwise_map]
  refine List.Pairwise.imp ?_ h
  intro a b hab
  simp only [negate]; linarith

theorem map_negate_non_decreasing {U : List Point} (h : x_non_increasing U) :
    x_non_decreasing (U.map negate) := by
  unfold x_non_decreasing
  rw [List.pairwise_map]
  refine List.Pairwise.imp ?_ h
  intro a b hab
  simp only [negate]; linarith

/-- C1: for every polygon with at least 2 vertices, not all identical, the output of
`x_monotone_from_polygon` is `L ++ U` with `L` the monotonized lower chain, of
non-decreasing x, and `U` the negated-back monotonized upper chain, of non-increasing
x; the index `k = |L|` holds the highest-right vertex, whose x is maximal in the output,
and x is non-decreasing on `output[0..k]` and non-increasing on `output[k..]`. No
simplicity of the polygon is assumed. -/
theorem C1_output_x_monotone (points : List Point) (h2 : 2 ≤ points.length)
    (hn : not_all_identical points) :
    ∃ l0 u0 L U,
      (split_into_lower_and_upper_boundary points).1.head? = some l0 ∧
      (split_into_lower_and_upper_boundary points).2.head? = some u0 ∧
      make_x_monotone (split_into_lower_and_upper_boundary points).1 u0 = .ok L ∧
      make_x_monotone ((split_into_lower_and_upper_boundary points).2.map negate) (negate l0)
        = .ok U ∧
      x_monotone_from_polygon points = .ok (L ++ U.map negate) ∧
      x_non_decreasing L ∧ x_non_increasing (U.map negate) ∧
      ∃ k, (L ++ U.map negate)[k]? = some u0 ∧
        (∀ r ∈ L ++ U.map negate, r.x ≤ u0.x) ∧
        x_non_decreasing ((L ++ U.map negate).take (k + 1)) ∧
        x_non_increasing ((L ++ U.map negate).drop k) := by
  obtain ⟨l0, u0, L, U, hlh, huh, -, -, -, -, hc1, hc2, hL, hU, hout⟩ :=
    polygon_spec points h2 hn
  obtain ⟨L', hL', -, hLs, hLb, -⟩ := make_x_monotone_spec hc1
  obtain ⟨U', hU', hUh, hUs, hUb, -⟩ := make_x_monotone_spec hc2
  rw [hL] at hL'
  rw [hU] at hU'
  cases hL'
  cases hU'
  have hUdec : x_non_increasing (U.map negate) := negate_map_non_increasing hUs
  have hUhead : (U.map negate)[0]? = some u0 := by
    rw [← List.head?_eq_getElem?, List.head?_map, hUh]
    simp [negate_negate]
  have hUx : ∀ r ∈ U.map negate, r.x ≤ u0.x := by
    intro r hr
    obtain ⟨q, hq, rfl⟩ := List.mem_map.mp hr
    have := (hUb q hq).1
    simp only [negate] at *; linarith
  refine ⟨l0, u0, L, U, hlh, huh, hL, hU, hout, hLs, hUdec, L.length, ?_, ?_, ?_, ?_⟩
  · rw [List.getElem?_append_right (le_refl _), Nat.sub_self]; exact hUhead
  · intro r hr
    rcases List.mem_append.mp hr with h | h
    · exact (hLb r h).2
    · exact hUx r h
  · obtain ⟨tl, hV⟩ : ∃ tl, U.map negate = u0 :: tl := by
      cases hm : U.map negate with
      | nil => rw [hm] at hUhead; simp at hUhead
      | cons a tl =>
        rw [hm] at hUhead
        simp only [List.getElem?_cons_zero, Option.some.injEq] at hUhead
        exact ⟨tl, by rw [hUhead]⟩
    rw [List.take_append, hV]
    unfold x_non_decreasing
    rw [List.take_succ_cons, List.take_zero, List.pairwise_append]
    refine ⟨hLs, List.pairwise_singleton _ _, ?_⟩
    intro a ha b hb
    rw [List.mem_singleton] at hb
    rw [hb]
    exact (hLb a ha).2
  · rw [List.drop_left]; exact hUdec

/-- Witness of C1 on the backward-notch pentagon. -/
theorem C1_output_x_monotone_witness :
    2 ≤ ([⟨0, 0⟩, ⟨3, 0⟩, ⟨1, 1⟩, ⟨3, 2⟩, ⟨0, 3⟩] : List Point).length ∧
    not_all_identical [⟨0, 0⟩, ⟨3, 0⟩, ⟨1, 1⟩, ⟨3, 2⟩, ⟨0, 3⟩] ∧
    ∃ L U, x_monotone_from_polygon [⟨0, 0⟩, ⟨3, 0⟩, ⟨1, 1⟩, ⟨3, 2⟩, ⟨0, 3⟩] = .ok (L ++ U) ∧
      x_non_decreasing L ∧ x_non_increasing U := by
  refine ⟨by decide, by decide, ?_⟩
  obtain ⟨_, _, L, U, -, -, -, -, h, hL, hU, -⟩ :=
    C1_output_x_monotone [⟨0, 0⟩, ⟨3, 0⟩, ⟨1, 1⟩, ⟨3, 2⟩, ⟨0, 3⟩] (by decide) (by decide)
  exact ⟨L, U.map negate, h, hL, hU⟩

/-- C2 (code defect): on the two-vertex input `[(0,0),(0,0)]` the scan leaves both
iterators on the first vertex, both chains are empty, and the read of
`upper_points[0]` is outside the vector: the call does not return a result. -/
theorem C2_identical_vertices_out_of_range :
    split_into_lower_and_upper_boundary [⟨0, 0⟩, ⟨0, 0⟩] = ([], []) ∧
    x_monotone_from_polygon [⟨0, 0⟩, ⟨0, 0⟩] = .error .out_of_range :=
  ⟨rfl, rfl⟩

/-- C3: on every sequence of 0 or 1 points `x_monotone_from_polygon` returns its input. -/
theorem C3_identity_on_degenerate_input (points : List Point) (h : points.length ≤ 1) :
    x_monotone_from_polygon points = .ok points := by
  have h2 : points.length < 2 := by omega
  simp only [x_monotone_from_polygon, h2, if_true]

/-- Witness of C3 on a one-point sequence. -/
theorem C3_identity_on_degenerate_input_witness :
    ([⟨5, 7⟩] : List Point).length ≤ 1 ∧
    x_monotone_from_polygon [⟨5, 7⟩] = .ok [⟨5, 7⟩] :=
  ⟨by decide, C3_identity_on_degenerate_input [⟨5, 7⟩] (by decide)⟩

/-- On a chain of non-decreasing x every iteration pushes the vertex. -/
theorem body_monotone_input (points : List Point) (end_point : Point)
    (hs : x_non_decreasing points) (k : Nat) (hk : k + 1 < points.length) :
    make_x_monotone_body points end_point (k + 1) (points.take (k + 1)).reverse
      = .ok (k + 2, (points.take (k + 2)).reverse) := by
  have hk0 : k < points.length := by omega
  have h1 : (points.take (k + 1)).reverse = points[k] :: (points.take k).reverse := by
    rw [List.take_succ, List.getElem?_eq_getElem hk0]; simp
  have h2 : (points.take (k + 2)).reverse = points[k + 1] :: (points.take (k + 1)).reverse := by
    rw [List.take_succ, List.getElem?_eq_getElem hk]; simp
  have hle : points[k].x ≤ points[k + 1].x :=
    List.pairwise_iff_getElem.mp hs k (k + 1) hk0 hk (Nat.lt_succ_self k)
  rw [h2, h1]
  unfold make_x_monotone_body
  simp only [List.getElem?_eq_getElem hk, ge_iff_le, hle, if_true]

theorem loop_monotone_input (points : List Point) (end_point : Point)
    (hs : x_non_decreasing points) : ∀ fuel k, k < points.length → points.length ≤ fuel + (k + 1) →
    make_x_monotone_loop points end_point fuel (k + 1) (points.take (k + 1)).reverse
      = .ok points.reverse := by
  intro fuel
  induction fuel with
  | zero =>
    intro k hk hf
    have he : k + 1 = points.length := by omega
    rw [he, List.take_length]
    simp [make_x_monotone_loop]
  | succ fuel ih =>
    intro k hk hf
    by_cases hi : k + 1 < points.length
    · rw [make_x_monotone_loop, if_pos hi, body_monotone_input points end_point hs k hi]
      exact ih (k + 1) hi (by omega)
    · have he : k + 1 = points.length := by omega
      rw [he, List.take_length]
      simp [make_x_monotone_loop]

/-- A chain whose x-coordinates never decrease is returned unchanged by `make_x_monotone`. -/
theorem make_x_monotone_of_non_decreasing (points : List Point) (end_point : Point)
    (hne : points ≠ []) (hs : x_non_decreasing points) :
    make_x_monotone points end_point = .ok points := by
  have hlen : 0 < points.length := List.length_pos.mpr hne
  have h0 : points[0]? = some points[0] := List.getElem?_eq_getElem hlen
  have ht : [points[0]] = (points.take (0 + 1)).reverse := by
    rw [List.take_succ, h0]; simp
  have := loop_monotone_input points end_point hs points.length 0 hlen (by omega)
  rw [← ht] at this
  simp only [make_x_monotone, h0, this, List.reverse_reverse]

theorem map_negate_negate (l : List Point) : (l.map negate).map negate = l := by
  rw [List.map_map]
  have : negate ∘ negate = id := by funext p; exact negate_negate p
  rw [this, List.map_id]

/-- C4: when the two chains produced by the split are already monotone (the lower one
of non-decreasing x, the upper one of non-increasing x), the output is exactly
`lower ++ upper`, which is the input rotated to start at its lowest-left vertex; it has
the length of the input and every output point is an input vertex. -/
theorem C4_stable_on_monotone_input (points : List Point) (h2 : 2 ≤ points.length)
    (hn : not_all_identical points)
    (hl : x_non_decreasing (split_into_lower_and_upper_boundary points).1)
    (hu : x_non_increasing (split_into_lower_and_upper_boundary points).2) :
    x_monotone_from_polygon points
      = .ok ((split_into_lower_and_upper_boundary points).1 ++
          (split_into_lower_and_upper_boundary points).2) ∧
    (split_into_lower_and_upper_boundary points).1 ++
        (split_into_lower_and_upper_boundary points).2
      = points.rotate (lowest_left_index points) ∧
    ((split_into_lower_and_upper_boundary points).1 ++
        (split_into_lower_and_upper_boundary points).2).length = points.length := by
  obtain ⟨l0, u0, L, U, hlh, huh, -, -, -, -, -, -, hL, hU, hout⟩ := polygon_spec points h2 hn
  have hrot := (split_rotate points hn).1
  have hlne : (split_into_lower_and_upper_boundary points).1 ≠ [] := by
    intro h0; rw [h0] at hlh; simp at hlh
  have hune : (split_into_lower_and_upper_boundary points).2.map negate ≠ [] := by
    intro h0; rw [List.map_eq_nil_iff] at h0; rw [h0] at huh; simp at huh
  rw [make_x_monotone_of_non_decreasing _ _ hlne hl] at hL
  rw [make_x_monotone_of_non_decreasing _ _ hune (map_negate_non_decreasing hu)] at hU
  cases hL
  cases hU
  rw [map_negate_negate] at hout
  refine ⟨hout, hrot, ?_⟩
  rw [hrot, List.length_rotate]

/-- Witness of C4: the square `[(0,0),(2,0),(2,2),(0,2)]` is returned as it is, with
its 4 vertices. -/
theorem C4_stable_on_monotone_input_witness :
    2 ≤ ([⟨0, 0⟩, ⟨2, 0⟩, ⟨2, 2⟩, ⟨0, 2⟩] : List Point).length ∧
    not_all_identical [⟨0, 0⟩, ⟨2, 0⟩, ⟨2, 2⟩, ⟨0, 2⟩] ∧
    x_non_decreasing (split_into_lower_and_upper_boundary [⟨0, 0⟩, ⟨2, 0⟩, ⟨2, 2⟩, ⟨0, 2⟩]).1 ∧
    x_non_increasing (split_into_lower_and_upper_boundary [⟨0, 0⟩, ⟨2, 0⟩, ⟨2, 2⟩, ⟨0, 2⟩]).2 ∧
    x_monotone_from_polygon [⟨0, 0⟩, ⟨2, 0⟩, ⟨2, 2⟩, ⟨0, 2⟩]
      = .ok [⟨0, 0⟩, ⟨2, 0⟩, ⟨2, 2⟩, ⟨0, 2⟩] :=
  ⟨by decide, by decide, by decide, by decide,
    (C4_stable_on_monotone_input [⟨0, 0⟩, ⟨2, 0⟩, ⟨2, 2⟩, ⟨0, 2⟩]
      (by decide) (by decide) (by decide) (by decide)).1⟩

/-- C5 (code defect): the simple pentagon `[(0,0),(1,1),(2,0),(1,-1),(3,-4)]` has no two
cyclically consecutive equal vertices, yet its monotonized lower chain is
`[(0,0),(1,1),(1,1),(1,-1)]`, with the point `(1,1)` twice in a row: on the vertex
`(1,-1)` the pops stop at the tail `(1,1)`, whose x equals that of the vertex, and the
interpolated point `(1,1)` is appended although it equals the tail. -/
theorem C5_adjacent_duplicate_in_lower_chain :
    no_cyclic_duplicates [⟨0, 0⟩, ⟨1, 1⟩, ⟨2, 0⟩, ⟨1, -1⟩, ⟨3, -4⟩] ∧
    split_into_lower_and_upper_boundary [⟨0, 0⟩, ⟨1, 1⟩, ⟨2, 0⟩, ⟨1, -1⟩, ⟨3, -4⟩]
      = ([⟨0, 0⟩, ⟨1, 1⟩, ⟨2, 0⟩, ⟨1, -1⟩], [⟨3, -4⟩]) ∧
    make_x_monotone [⟨0, 0⟩, ⟨1, 1⟩, ⟨2, 0⟩, ⟨1, -1⟩] ⟨3, -4⟩
      = .ok [⟨0, 0⟩, ⟨1, 1⟩, ⟨1, 1⟩, ⟨1, -1⟩] ∧
    ¬ no_adjacent_duplicates [⟨0, 0⟩, ⟨1, 1⟩, ⟨1, 1⟩, ⟨1, -1⟩] ∧
    x_monotone_from_polygon [⟨0, 0⟩, ⟨1, 1⟩, ⟨2, 0⟩, ⟨1, -1⟩, ⟨3, -4⟩]
      = .ok [⟨0, 0⟩, ⟨1, 1⟩, ⟨1, 1⟩, ⟨1, -1⟩, ⟨3, -4⟩] := by
  refine ⟨by decide, by decide, ?_, by simp [no_adjacent_duplicates], ?_⟩
  · norm_num [make_x_monotone, make_x_monotone_loop, make_x_monotone_body,
      is_boundary_turning_left, remove_boundary_points_to_the_right,
      remove_edges_to_the_right, remove_edges_loop, edge_point_at_x]
  · norm_num [x_monotone_from_polygon, split_into_lower_and_upper_boundary, find_extremes,
      range, negate, make_x_monotone, make_x_monotone_loop, make_x_monotone_body,
      is_boundary_turning_left, remove_boundary_points_to_the_right,
      remove_edges_to_the_right, remove_edges_loop, edge_point_at_x]

/-- C6: for every polygon with at least 2 vertices, not all identical, every point of the
monotonized lower chain lies on an edge of the lower chain closed by the first upper
vertex, every point of the negated-back upper chain lies on an edge of the upper chain
closed by the first lower vertex, each such edge joins two cyclically consecutive
input vertices, and so every output point lies on the closed segment between two
cyclically consecutive input vertices: interpolation parameter in `[0, 1]` and
collinear with the endpoints (an input vertex lies on the edge that starts at it). -/
theorem C6_output_points_on_polygon_edges (points : List Point) (h2 : 2 ≤ points.length)
    (hn : not_all_identical points) :
    ∃ l0 u0 L U,
      (split_into_lower_and_upper_boundary points).1.head? = some l0 ∧
      (split_into_lower_and_upper_boundary points).2.head? = some u0 ∧
      make_x_monotone (split_into_lower_and_upper_boundary points).1 u0 = .ok L ∧
      make_x_monotone ((split_into_lower_and_upper_boundary points).2.map negate) (negate l0)
        = .ok U ∧
      x_monotone_from_polygon points = .ok (L ++ U.map negate) ∧
      (∀ q ∈ L, on_chain_edge (split_into_lower_and_upper_boundary points).1 u0 q) ∧
      (∀ q ∈ U.map negate, on_chain_edge (split_into_lower_and_upper_boundary points).2 l0 q) ∧
      (∀ a b, is_chain_edge (split_into_lower_and_upper_boundary points).1 u0 a b ∨
          is_chain_edge (split_into_lower_and_upper_boundary points).2 l0 a b →
        is_polygon_edge points a b) ∧
      ∀ q ∈ L ++ U.map negate,
        ∃ a b, is_polygon_edge points a b ∧ on_segment a b q ∧ collinear a b q := by
  obtain ⟨l0, u0, L, U, hlh, huh, -, -, -, -, hc1, hc2, hL, hU, hout⟩ :=
    polygon_spec points h2 hn
  obtain ⟨L', hL', -, -, -, hLe⟩ := make_x_monotone_spec hc1
  obtain ⟨U', hU', -, -, -, hUe⟩ := make_x_monotone_spec hc2
  rw [hL] at hL'
  rw [hU] at hU'
  cases hL'
  cases hU'
  have hrot := (split_rotate points hn).1
  have hUe' : ∀ q ∈ U.map negate,
      on_chain_edge (split_into_lower_and_upper_boundary points).2 l0 q := by
    intro q hq
    obtain ⟨r, hr, rfl⟩ := List.mem_map.mp hq
    obtain ⟨a, b, hab, hseg⟩ := hUe r hr
    obtain ⟨a', b', rfl, rfl, hab'⟩ := chain_edge_negate hab
    exact ⟨a', b', hab', on_segment_negate hseg⟩
  have hedge : ∀ a b, is_chain_edge (split_into_lower_and_upper_boundary points).1 u0 a b ∨
      is_chain_edge (split_into_lower_and_upper_boundary points).2 l0 a b →
      is_polygon_edge points a b := by
    intro a b hab
    apply polygon_edge_rotate (k := lowest_left_index points)
    rw [← hrot]
    rcases hab with h | h
    · exact lower_edge_polygon huh h
    · exact upper_edge_polygon hlh h
  refine ⟨l0, u0, L, U, hlh, huh, hL, hU, hout, hLe, hUe', hedge, ?_⟩
  intro q hq
  rcases List.mem_append.mp hq with h | h
  · obtain ⟨a, b, hab, hseg⟩ := hLe q h
    exact ⟨a, b, hedge a b (Or.inl hab), hseg, on_segment_collinear hseg⟩
  · obtain ⟨a, b, hab, hseg⟩ := hUe' q h
    exact ⟨a, b, hedge a b (Or.inr hab), hseg, on_segment_collinear hseg⟩

/-- Witness of C6 on the backward-notch pentagon. -/
theorem C6_output_points_on_polygon_edges_witness :
    2 ≤ ([⟨0, 0⟩, ⟨3, 0⟩, ⟨1, 1⟩, ⟨3, 2⟩, ⟨0, 3⟩] : List Point).length ∧
    not_all_identical [⟨0, 0⟩, ⟨3, 0⟩, ⟨1, 1⟩, ⟨3, 2⟩, ⟨0, 3⟩] ∧
    ∃ out, x_monotone_from_polygon [⟨0, 0⟩, ⟨3, 0⟩, ⟨1, 1⟩, ⟨3, 2⟩, ⟨0, 3⟩] = .ok out ∧
      ∀ q ∈ out, ∃ a b, is_polygon_edge [⟨0, 0⟩, ⟨3, 0⟩, ⟨1, 1⟩, ⟨3, 2⟩, ⟨0, 3⟩] a b ∧
        on_segment a b q ∧ collinear a b q := by
  refine ⟨by decide, by decide, ?_⟩
  obtain ⟨_, _, L, U, -, -, -, -, h, -, -, -, hq⟩ :=
    C6_output_points_on_polygon_edges [⟨0, 0⟩, ⟨3, 0⟩, ⟨1, 1⟩, ⟨3, 2⟩, ⟨0, 3⟩]
      (by decide) (by decide)
  exact ⟨_, h, hq⟩

theorem mod_of_lt_two_mul {a n : Nat} (h : a < 2 * n) :
    a % n = if a < n then a else a - n := by
  split
  · rename_i h1; exact Nat.mod_eq_of_lt h1
  · rename_i h1
    rw [Nat.mod_eq_sub_mod (not_lt.mp h1)]
    exact Nat.mod_eq_of_lt (by omega)

/-- C7: on a vertex sequence of size at least 2 whose vertices are not all identical,
`lower ++ upper` is the rotation of the input that starts at the index of the
lowest-left vertex; both chains are non-empty, `lower` starts with the vertex at the
lowest-left index and `upper` with the vertex at the highest-right index, position `j`
of a chain holds the input vertex at index `(start + j) mod n` (a contiguous wrapping
run), the upper run starts where the lower one ends, every input index is reached from
exactly one position of `lower ++ upper`, and the two lengths add up to `n`. -/
theorem C7_split_is_rotation_at_lowest_left (points : List Point) (h2 : 2 ≤ points.length)
    (hn : not_all_identical points) :
    (split_into_lower_and_upper_boundary points).1 ++
        (split_into_lower_and_upper_boundary points).2
      = points.rotate (lowest_left_index points) ∧
    lowest_left_index points < points.length ∧
    highest_right_index points < points.length ∧
    (split_into_lower_and_upper_boundary points).1 ≠ [] ∧
    (split_into_lower_and_upper_boundary points).2 ≠ [] ∧
    (split_into_lower_and_upper_boundary points).1.head? = points[lowest_left_index points]? ∧
    (split_into_lower_and_upper_boundary points).2.head? = points[highest_right_index points]? ∧
    (split_into_lower_and_upper_boundary points).1.length +
        (split_into_lower_and_upper_boundary points).2.length = points.length ∧
    highest_right_index points
      = (lowest_left_index points + (split_into_lower_and_upper_boundary points).1.length)
          % points.length ∧
    (∀ j, j < (split_into_lower_and_upper_boundary points).1.length →
      (split_into_lower_and_upper_boundary points).1[j]?
        = points[(lowest_left_index points + j) % points.length]?) ∧
    (∀ j, j < (split_into_lower_and_upper_boundary points).2.length →
      (split_into_lower_and_upper_boundary points).2[j]?
        = points[(highest_right_index points + j) % points.length]?) ∧
    (∀ i, i < points.length →
      ∃! j, j < points.length ∧ (lowest_left_index points + j) % points.length = i) := by
  have hne : points ≠ [] := by intro h; rw [h] at h2; simp at h2
  obtain ⟨l0, u0, hl, hu, -, -⟩ := extremes_spec points hne
  have hll := (List.getElem?_eq_some.mp hl).1
  have hhr := (List.getElem?_eq_some.mp hu).1
  have hd := extremes_ne points hn
  obtain ⟨hrot, hlh, huh⟩ := split_rotate points hn
  have hlne : (split_into_lower_and_upper_boundary points).1 ≠ [] := by
    intro h0; rw [h0, hl] at hlh; simp at hlh
  have hune : (split_into_lower_and_upper_boundary points).2 ≠ [] := by
    intro h0; rw [h0, hu] at huh; simp at huh
  have hlen : (split_into_lower_and_upper_boundary points).1.length +
      (split_into_lower_and_upper_boundary points).2.length = points.length := by
    rw [← List.length_append, hrot, List.length_rotate]
  have hlowlen : (split_into_lower_and_upper_boundary points).1.length
      = if highest_right_index points < lowest_left_index points
        then points.length - lowest_left_index points + highest_right_index points
        else highest_right_index points - lowest_left_index points := by
    rw [split_eq points hne]
    simp only
    split
    · rw [List.length_append, List.length_drop, List.length_take]; omega
    · rw [List.length_drop, List.length_take]; omega
  have hhreq : highest_right_index points
      = (lowest_left_index points + (split_into_lower_and_upper_boundary points).1.length)
          % points.length := by
    rw [hlowlen, mod_of_lt_two_mul (by split <;> omega)]
    split <;> split <;> omega
  have hidx : ∀ j, j < points.length →
      ((split_into_lower_and_upper_boundary points).1 ++
        (split_into_lower_and_upper_boundary points).2)[j]?
        = points[(lowest_left_index points + j) % points.length]? := by
    intro j hj
    rw [hrot, List.getElem?_rotate hj, Nat.add_comm]
  refine ⟨hrot, hll, hhr, hlne, hune, hlh, huh, hlen, hhreq, ?_, ?_, ?_⟩
  · intro j hj
    rw [← hidx j (by omega), List.getElem?_append_left hj]
  · intro j hj
    have h1 := hidx ((split_into_lower_and_upper_boundary points).1.length + j) (by omega)
    rw [List.getElem?_append_right (by omega), Nat.add_sub_cancel_left] at h1
    rw [h1]
    congr 1
    conv_rhs => rw [hhreq]
    rw [Nat.mod_add_mod, Nat.add_assoc]
  · intro i hi
    refine ⟨(i + points.length - lowest_left_index points) % points.length,
      ⟨Nat.mod_lt _ (by omega), ?_⟩, ?_⟩
    · rw [Nat.add_mod_mod]
      have : lowest_left_index points + (i + points.length - lowest_left_index points)
          = i + points.length := by omega
      rw [this, Nat.add_mod_right, Nat.mod_eq_of_lt hi]
    · rintro j ⟨hj, hji⟩
      rw [mod_of_lt_two_mul (by omega)] at hji
      rw [mod_of_lt_two_mul (by omega)]
      split at hji <;> split <;> omega

/-- Witness of C7 on the backward-notch pentagon. -/
theorem C7_split_is_rotation_at_lowest_left_witness :
    2 ≤ ([⟨0, 0⟩, ⟨3, 0⟩, ⟨1, 1⟩, ⟨3, 2⟩, ⟨0, 3⟩] : List Point).length ∧
    not_all_identical [⟨0, 0⟩, ⟨3, 0⟩, ⟨1, 1⟩, ⟨3, 2⟩, ⟨0, 3⟩] ∧
    (split_into_lower_and_upper_boundary [⟨0, 0⟩, ⟨3, 0⟩, ⟨1, 1⟩, ⟨3, 2⟩, ⟨0, 3⟩]).1 ++
        (split_into_lower_and_upper_boundary [⟨0, 0⟩, ⟨3, 0⟩, ⟨1, 1⟩, ⟨3, 2⟩, ⟨0, 3⟩]).2
      = ([⟨0, 0⟩, ⟨3, 0⟩, ⟨1, 1⟩, ⟨3, 2⟩, ⟨0, 3⟩] : List Point).rotate
          (lowest_left_index [⟨0, 0⟩, ⟨3, 0⟩, ⟨1, 1⟩, ⟨3, 2⟩, ⟨0, 3⟩]) :=
  ⟨by decide, by decide,
    (C7_split_is_rotation_at_lowest_left [⟨0, 0⟩, ⟨3, 0⟩, ⟨1, 1⟩, ⟨3, 2⟩, ⟨0, 3⟩]
      (by decide) (by decide)).1⟩

/-- C8: on a vertex sequence of size at least 2 whose vertices are not all identical,
the first point of the lower chain is an input vertex that is the lexicographic minimum
of `(x, y)` over all vertices (minimal x, ties by minimal y), and the first point of
the upper chain is an input vertex that is the lexicographic maximum (maximal x, ties
by maximal y). -/
theorem C8_chain_heads_are_lexicographic_extremes (points : List Point)
    (h2 : 2 ≤ points.length) (hn : not_all_identical points) :
    ∃ l0 u0,
      (split_into_lower_and_upper_boundary points).1.head? = some l0 ∧
      (split_into_lower_and_upper_boundary points).2.head? = some u0 ∧
      l0 ∈ points ∧ u0 ∈ points ∧
      (∀ p ∈ points, l0.x < p.x ∨ (l0.x = p.x ∧ l0.y ≤ p.y)) ∧
      (∀ p ∈ points, p.x < u0.x ∨ (p.x = u0.x ∧ p.y ≤ u0.y)) := by
  obtain ⟨l0, u0, L, U, hlh, huh, hl, hu, hmin, hmax, -⟩ := polygon_spec points h2 hn
  exact ⟨l0, u0, hlh, huh, List.getElem?_mem hl, List.getElem?_mem hu, hmin, hmax⟩

/-- Witness of C8 on the square. -/
theorem C8_chain_heads_are_lexicographic_extremes_witness :
    2 ≤ ([⟨0, 0⟩, ⟨2, 0⟩, ⟨2, 2⟩, ⟨0, 2⟩] : List Point).length ∧
    not_all_identical [⟨0, 0⟩, ⟨2, 0⟩, ⟨2, 2⟩, ⟨0, 2⟩] ∧
    ∃ l0 u0,
      (split_into_lower_and_upper_boundary [⟨0, 0⟩, ⟨2, 0⟩, ⟨2, 2⟩, ⟨0, 2⟩]).1.head? = some l0 ∧
      (split_into_lower_and_upper_boundary [⟨0, 0⟩, ⟨2, 0⟩, ⟨2, 2⟩, ⟨0, 2⟩]).2.head? = some u0 ∧
      l0 ∈ ([⟨0, 0⟩, ⟨2, 0⟩, ⟨2, 2⟩, ⟨0, 2⟩] : List Point) ∧
      u0 ∈ ([⟨0, 0⟩, ⟨2, 0⟩, ⟨2, 2⟩, ⟨0, 2⟩] : List Point) ∧
      (∀ p ∈ ([⟨0, 0⟩, ⟨2, 0⟩, ⟨2, 2⟩, ⟨0, 2⟩] : List Point),
        l0.x < p.x ∨ (l0.x = p.x ∧ l0.y ≤ p.y)) ∧
      (∀ p ∈ ([⟨0, 0⟩, ⟨2, 0⟩, ⟨2, 2⟩, ⟨0, 2⟩] : List Point),
        p.x < u0.x ∨ (p.x = u0.x ∧ p.y ≤ u0.y)) :=
  ⟨by decide, by decide,
    C8_chain_heads_are_lexicographic_extremes [⟨0, 0⟩, ⟨2, 0⟩, ⟨2, 2⟩, ⟨0, 2⟩]
      (by decide) (by decide)⟩

/-- C9 (code defect): on three identical vertices both iterators stay on index 0, and
the split returns two empty chains: neither chain has exactly one point and neither
holds the vertex cycle. -/
theorem C9_coinciding_extremes_give_empty_chains :
    lowest_left_index [⟨1, 2⟩, ⟨1, 2⟩, ⟨1, 2⟩] = 0 ∧
    highest_right_index [⟨1, 2⟩, ⟨1, 2⟩, ⟨1, 2⟩] = 0 ∧
    split_into_lower_and_upper_boundary [⟨1, 2⟩, ⟨1, 2⟩, ⟨1, 2⟩] = ([], []) :=
  ⟨by decide, by decide, by decide⟩

/-- C10 (the claim as stated fails): the output for the backward-notch pentagon
`[(0,0),(3,0),(1,1),(3,2),(0,3)]` cannot be cut into a part of strictly increasing x
followed by a part of strictly decreasing x. -/
theorem C10_notch_not_strictly_monotone :
    ¬ ∃ out, x_monotone_from_polygon [⟨0, 0⟩, ⟨3, 0⟩, ⟨1, 1⟩, ⟨3, 2⟩, ⟨0, 3⟩] = .ok out ∧
      (⟨1, 1⟩ : Point) ∉ out ∧
      ∃ L U, out = L ++ U ∧ x_strictly_increasing L ∧ x_strictly_decreasing U := by
  rintro ⟨out, h, -, L, U, hLU, hL, hU⟩
  have heval : x_monotone_from_polygon [⟨0, 0⟩, ⟨3, 0⟩, ⟨1, 1⟩, ⟨3, 2⟩, ⟨0, 3⟩]
      = .ok [⟨0, 0⟩, ⟨3, 0⟩, ⟨3, 2⟩, ⟨3, 2⟩, ⟨0, 3⟩] := by
    norm_num [x_monotone_from_polygon, split_into_lower_and_upper_boundary, find_extremes,
      range, negate, make_x_monotone, make_x_monotone_loop, make_x_monotone_body,
      is_boundary_turning_left, skip_boundary_points_to_the_left,
      find_next_edge_intersecting_x, find_next_loop, size_minus_one, invalid_index,
      edge_point_at_x]
  rw [heval] at h
  cases h
  have hL' : L = List.take L.length [⟨0, 0⟩, ⟨3, 0⟩, ⟨3, 2⟩, ⟨3, 2⟩, ⟨0, 3⟩] := by
    rw [hLU]; simp
  have hU' : U = List.drop L.length [⟨0, 0⟩, ⟨3, 0⟩, ⟨3, 2⟩, ⟨3, 2⟩, ⟨0, 3⟩] := by
    rw [hLU]; simp
  have hlen : L.length ≤ 5 := by
    have := congrArg List.length hLU
    simp only [List.length_cons, List.length_nil, List.length_append] at this
    omega
  rw [hL'] at hL
  rw [hU'] at hU
  generalize L.length = k at hL hU hlen
  interval_cases k <;>
    simp [x_strictly_increasing, x_strictly_decreasing] at hL hU

/-- C10 (amended): the output for the backward-notch pentagon is
`[(0,0),(3,0),(3,2),(3,2),(0,3)]`; it does not contain the notch vertex `(1,1)`, and it
is the monotonized lower chain `[(0,0),(3,0),(3,2)]`, of non-decreasing x, followed by
the upper chain `[(3,2),(0,3)]`, of strictly decreasing x. -/
theorem C10_notch_weakly_monotone_output :
    split_into_lower_and_upper_boundary [⟨0, 0⟩, ⟨3, 0⟩, ⟨1, 1⟩, ⟨3, 2⟩, ⟨0, 3⟩]
      = ([⟨0, 0⟩, ⟨3, 0⟩, ⟨1, 1⟩], [⟨3, 2⟩, ⟨0, 3⟩]) ∧
    make_x_monotone [⟨0, 0⟩, ⟨3, 0⟩, ⟨1, 1⟩] ⟨3, 2⟩ = .ok [⟨0, 0⟩, ⟨3, 0⟩, ⟨3, 2⟩] ∧
    (make_x_monotone (([⟨3, 2⟩, ⟨0, 3⟩] : List Point).map negate) (negate ⟨0, 0⟩)).map
        (List.map negate) = .ok [⟨3, 2⟩, ⟨0, 3⟩] ∧
    x_monotone_from_polygon [⟨0, 0⟩, ⟨3, 0⟩, ⟨1, 1⟩, ⟨3, 2⟩, ⟨0, 3⟩]
      = .ok ([⟨0, 0⟩, ⟨3, 0⟩, ⟨3, 2⟩] ++ [⟨3, 2⟩, ⟨0, 3⟩]) ∧
    (⟨1, 1⟩ : Point) ∉ ([⟨0, 0⟩, ⟨3, 0⟩, ⟨3, 2⟩] ++ [⟨3, 2⟩, ⟨0, 3⟩] : List Point) ∧
    x_non_decreasing [⟨0, 0⟩, ⟨3, 0⟩, ⟨3, 2⟩] ∧
    x_strictly_decreasing [⟨3, 2⟩, ⟨0, 3⟩] := by
  refine ⟨by decide, ?_, ?_, ?_, by decide, by decide, by decide⟩
  · norm_num [make_x_monotone, make_x_monotone_loop, make_x_monotone_body,
      is_boundary_turning_left, skip_boundary_points_to_the_left,
      find_next_edge_intersecting_x, find_next_loop, size_minus_one, invalid_index,
      edge_point_at_x]
  · norm_num [negate, make_x_monotone, make_x_monotone_loop, make_x_monotone_body,
      Except.map]
  · norm_num [x_monotone_from_polygon, split_into_lower_and_upper_boundary, find_extremes,
      range, negate, make_x_monotone, make_x_monotone_loop, make_x_monotone_body,
      is_boundary_turning_left, skip_boundary_points_to_the_left,
      find_next_edge_intersecting_x, find_next_loop, size_minus_one, invalid_index,
      edge_point_at_x]

/-! ## The claims on the chain monotonizer and its helpers -/

/-- Under the precondition of the call sites every state of the scan satisfies the loop
invariant. -/
theorem scan_reaches_inv {points : List Point} {end_point p0 : Point}
    (hc : chain_ok points end_point p0) {i : Nat} {result : List Point}
    (h : scan_reaches points end_point i result) :
    ∃ k, loop_inv points end_point p0 k result ∧ (i < points.length → k = i) := by
  induction h with
  | init q hq =>
    have : q = p0 := by
      have h1 := hc.first
      rw [hq] at h1
      exact Option.some.inj h1
    subst this
    exact ⟨1, loop_inv_init hc, fun _ => rfl⟩
  | step i j result result' _ hi hbody ih =>
    obtain ⟨k, inv, hk⟩ := ih
    rw [hk hi] at inv
    obtain ⟨j', r', h1, _, h3⟩ := body_spec hc inv hi
    rw [hbody] at h1
    cases h1
    exact ⟨j, h3, fun _ => rfl⟩

/-- The deque returned by the loop started in a state of the scan is the deque of a
state of the scan. -/
theorem loop_result_reached (points : List Point) (end_point : Point) :
    ∀ (fuel i : Nat) (result out : List Point), scan_reaches points end_point i result →
    make_x_monotone_loop points end_point fuel i result = .ok out →
    ∃ j, scan_reaches points end_point j out := by
  intro fuel
  induction fuel with
  | zero =>
    intro i result out hr h
    rw [make_x_monotone_loop] at h
    split at h
    · simp at h
    · simp only [Except.ok.injEq] at h
      subst h
      exact ⟨i, hr⟩
  | succ fuel ih =>
    intro i result out hr h
    rw [make_x_monotone_loop] at h
    split at h
    · rename_i hi
      split at h
      · simp at h
      · rename_i j r' hb
        exact ih j r' out (scan_reaches.step i j result r' hr hi hb) h
    · simp only [Except.ok.injEq] at h
      subst h
      exact ⟨i, hr⟩

/-- C11 (the claim as stated fails): with the closing point `(1,5)` left of the vertex
`(2,0)` the chain `[(0,0),(2,0),(1,1)]` is returned as it is, with x-coordinates
`0, 2, 1`; and the chain `[(1,0),(2,0),(0,-1)]`, whose first vertex is not its leftmost,
is returned as `[(1,0),(0,0),(0,-1)]`, with x-coordinates `1, 0, 0`. -/
theorem C11_not_monotone_without_precondition :
    make_x_monotone [⟨0, 0⟩, ⟨2, 0⟩, ⟨1, 1⟩] ⟨1, 5⟩ = .ok [⟨0, 0⟩, ⟨2, 0⟩, ⟨1, 1⟩] ∧
    ¬ x_non_decreasing [⟨0, 0⟩, ⟨2, 0⟩, ⟨1, 1⟩] ∧
    make_x_monotone [⟨1, 0⟩, ⟨2, 0⟩, ⟨0, -1⟩] ⟨3, 0⟩ = .ok [⟨1, 0⟩, ⟨0, 0⟩, ⟨0, -1⟩] ∧
    ¬ x_non_decreasing [⟨1, 0⟩, ⟨0, 0⟩, ⟨0, -1⟩] := by
  refine ⟨?_, by decide, ?_, by decide⟩
  · norm_num [make_x_monotone, make_x_monotone_loop, make_x_monotone_body,
      is_boundary_turning_left, skip_boundary_points_to_the_left,
      find_next_edge_intersecting_x, find_next_loop, size_minus_one, invalid_index,
      edge_point_at_x]
  · norm_num [make_x_monotone, make_x_monotone_loop, make_x_monotone_body,
      is_boundary_turning_left, remove_boundary_points_to_the_right,
      remove_edges_to_the_right, remove_edges_loop, edge_point_at_x]

/-- C11 (amended): for every chain whose first vertex `p0` has the least x of the chain
and whose closing point has an x not below that of any vertex of the chain (which
holds at both call sites), `make_x_monotone` returns a sequence of non-decreasing x,
and the deque has non-decreasing x, in storage order, in every state of the scan. -/
theorem C11_monotone_under_call_site_precondition (points : List Point)
    (end_point p0 : Point) (hfirst : points[0]? = some p0)
    (hmin : ∀ p ∈ points, p0.x ≤ p.x) (hmax : ∀ p ∈ points, p.x ≤ end_point.x) :
    (∃ out, make_x_monotone points end_point = .ok out ∧ x_non_decreasing out ∧
      ∃ j, scan_reaches points end_point j out.reverse) ∧
    ∀ i result, scan_reaches points end_point i result → x_non_decreasing result.reverse := by
  have hc : chain_ok points end_point p0 := ⟨hfirst, hmin, hmax⟩
  constructor
  · obtain ⟨out, h1, -, h2, -⟩ := make_x_monotone_spec hc
    refine ⟨out, h1, h2, ?_⟩
    unfold make_x_monotone at h1
    rw [hfirst] at h1
    simp only at h1
    split at h1
    · simp at h1
    · rename_i r hr
      simp only [Except.ok.injEq] at h1
      subst h1
      rw [List.reverse_reverse]
      exact loop_result_reached points end_point _ _ _ _ (scan_reaches.init p0 hfirst) hr
  · intro i result h
    obtain ⟨k, inv, -⟩ := scan_reaches_inv hc h
    unfold x_non_decreasing
    rw [List.pairwise_reverse]
    exact inv.sorted

/-- Witness of C11 (amended) on the lower chain of the backward-notch pentagon. -/
theorem C11_monotone_under_call_site_precondition_witness :
    ([⟨0, 0⟩, ⟨3, 0⟩, ⟨1, 1⟩] : List Point)[0]? = some ⟨0, 0⟩ ∧
    (∀ p ∈ ([⟨0, 0⟩, ⟨3, 0⟩, ⟨1, 1⟩] : List Point), (⟨0, 0⟩ : Point).x ≤ p.x) ∧
    (∀ p ∈ ([⟨0, 0⟩, ⟨3, 0⟩, ⟨1, 1⟩] : List Point), p.x ≤ (⟨3, 2⟩ : Point).x) ∧
    ∃ out, make_x_monotone [⟨0, 0⟩, ⟨3, 0⟩, ⟨1, 1⟩] ⟨3, 2⟩ = .ok out ∧ x_non_decreasing out :=
  ⟨rfl, by decide, by decide,
    (C11_monotone_under_call_site_precondition [⟨0, 0⟩, ⟨3, 0⟩, ⟨1, 1⟩] ⟨3, 2⟩ ⟨0, 0⟩ rfl
      (by decide) (by decide)).1.imp fun _ h => ⟨h.1, h.2.1⟩⟩

/-- The index returned by `skip_boundary_points_to_the_left` from a start index inside
the chain is `points.size()` or the start index `j ≥ i` of an edge of the chain. -/
theorem skip_index {points : List Point} {end_point : Point} {i j : Nat}
    {result result' : List Point} (hi : i < points.length)
    (h : skip_boundary_points_to_the_left points i end_point result = .ok (j, result')) :
    j = points.length ∨ (i ≤ j ∧ j + 1 < points.length) := by
  have hne : points ≠ [] := by intro h0; rw [h0] at hi; simp at hi
  cases result with
  | nil => simp [skip_boundary_points_to_the_left] at h
  | cons back tl =>
    unfold skip_boundary_points_to_the_left at h
    simp only at h
    rcases find_next_spec points back.x i hne with
      ⟨k, f, s, h1, h2, h3, h4, h5, -⟩ | ⟨h1, -⟩
    · rw [h1] at h
      simp only [h4, h5, Except.ok.injEq, Prod.mk.injEq] at h
      right
      rw [← h.1]
      exact ⟨h2, h3⟩
    · rw [h1] at h
      left
      cases hl : points[points.length - 1]? with
      | none => rw [hl] at h; simp at h
      | some last =>
        rw [hl] at h
        simp only at h
        split at h <;>
        · simp only [Except.ok.injEq, Prod.mk.injEq] at h
          exact h.1.symm

/-- Every completed iteration of the loop of `make_x_monotone` moves the index forward. -/
theorem body_index {points : List Point} {end_point : Point} {i j : Nat}
    {result result' : List Point}
    (h : make_x_monotone_body points end_point i result = .ok (j, result')) : i < j := by
  unfold make_x_monotone_body at h
  split at h
  · rename_i hpt
    have hi : i < points.length := (List.getElem?_eq_some.mp hpt).1
    split at h
    · simp only [Except.ok.injEq, Prod.mk.injEq] at h
      omega
    · split at h
      · simp at h
      · split at h
        · simp at h
        · rename_i i' r' hs
          simp only [Except.ok.injEq, Prod.mk.injEq] at h
          rcases skip_index hi hs with h1 | h1 <;> omega
      · split at h
        · simp at h
        · simp only [Except.ok.injEq, Prod.mk.injEq] at h
          omega
  · simp at h

theorem remove_edges_loop_suffix (x : ℚ) : ∀ (stack : List Point) (second : Point),
    (remove_edges_loop stack second x).2 <:+ stack := by
  intro stack
  induction stack with
  | nil => intro second; simp [remove_edges_loop]
  | cons first tl ih =>
    intro second
    cases tl with
    | nil => simp [remove_edges_loop]
    | cons below rest =>
      rw [remove_edges_loop]
      split
      · exact List.suffix_refl _
      · exact (ih first).trans (List.suffix_cons _ _)

/-- The function `remove_edges_to_the_right` leaves a proper suffix (tail first) of the
deque: it is strictly shorter. -/
theorem remove_edges_shrinks {stack stack' : List Point} {x : ℚ} {s : Point}
    (h : remove_edges_to_the_right stack x = .ok (s, stack')) :
    stack' <:+ stack ∧ stack'.length < stack.length := by
  cases stack with
  | nil => simp [remove_edges_to_the_right] at h
  | cons second rest =>
    simp only [remove_edges_to_the_right, Except.ok.injEq] at h
    have h1 := remove_edges_loop_suffix x rest second
    rw [h] at h1
    simp only at h1
    exact ⟨h1.trans (List.suffix_cons _ _), Nat.lt_succ_of_le h1.length_le⟩

theorem find_next_loop_fault (points : List Point) (x : ℚ) : ∀ n i e,
    find_next_loop points x n i = .error e → e = .out_of_range := by
  intro n
  induction n with
  | zero => intro i e h; simp [find_next_loop] at h
  | succ n ih =>
    intro i e h
    rw [find_next_loop] at h
    split at h
    · split at h
      · simp at h
      · exact ih _ _ h
    · simp only [Except.error.injEq] at h
      exact h.symm

/-- An iteration of the loop of `make_x_monotone` never reports an exhausted budget: its
only fault is an access out of range. -/
theorem body_fault {points : List Point} {end_point : Point} {i : Nat}
    {result : List Point} {e : Fault}
    (h : make_x_monotone_body points end_point i result = .error e) : e = .out_of_range := by
  unfold make_x_monotone_body at h
  split at h
  · split at h
    · simp at h
    · split at h
      · rename_i e' ht
        simp only [Except.error.injEq] at h
        subst h
        unfold is_boundary_turning_left at ht
        split at ht
        · simp at ht
        · simp only [Except.error.injEq] at ht
          exact ht.symm
      · split at h
        · rename_i e' hs
          simp only [Except.error.injEq] at h
          subst h
          unfold skip_boundary_points_to_the_left at hs
          split at hs
          · simp only [Except.error.injEq] at hs
            exact hs.symm
          · split at hs
            · rename_i e2 hf
              simp only [Except.error.injEq] at hs
              subst hs
              exact find_next_loop_fault _ _ _ _ _ hf
            · split at hs
              · simp only [Except.error.injEq] at hs
                exact hs.symm
              · dsimp only at hs
                split at hs <;> simp at hs
            · split at hs
              · simp at hs
              · simp only [Except.error.injEq] at hs
                exact hs.symm
        · simp at h
      · split at h
        · rename_i e' hr
          simp only [Except.error.injEq] at h
          subst h
          unfold remove_boundary_points_to_the_right at hr
          split at hr
          · rename_i e2 hre
            simp only [Except.error.injEq] at hr
            subst hr
            unfold remove_edges_to_the_right at hre
            split at hre
            · simp only [Except.error.injEq] at hre
              exact hre.symm
            · simp at hre
          · split at hr
            · simp only [Except.error.injEq] at hr
              exact hr.symm
            · split at hr <;> simp at hr
        · simp at h
  · simp only [Except.error.injEq] at h
    exact h.symm

/-- With a budget that covers the indices left, the loop never exhausts its budget. -/
theorem loop_never_out_of_fuel (points : List Point) (end_point : Point) :
    ∀ (fuel i : Nat) (result : List Point), points.length ≤ fuel + i →
    make_x_monotone_loop points end_point fuel i result ≠ .error .out_of_fuel := by
  intro fuel
  induction fuel with
  | zero =>
    intro i result hf
    have hn : ¬ i < points.length := by omega
    simp [make_x_monotone_loop, hn]
  | succ fuel ih =>
    intro i result hf
    rw [make_x_monotone_loop]
    split
    · split
      · rename_i e he
        have := body_fault he
        subst this
        simp
      · rename_i i' r' hb
        exact ih i' r' (by have := body_index hb; omega)
    · simp

/-- Any two budgets that cover the indices left give the same outcome of the loop. -/
theorem loop_fuel_irrelevant (points : List Point) (end_point : Point) :
    ∀ (f1 f2 i : Nat) (result : List Point), points.length ≤ f1 + i → points.length ≤ f2 + i →
    make_x_monotone_loop points end_point f1 i result
      = make_x_monotone_loop points end_point f2 i result := by
  intro f1
  induction f1 with
  | zero =>
    intro f2 i result h1 h2
    have hn : ¬ i < points.length := by omega
    cases f2 <;> simp [make_x_monotone_loop, hn]
  | succ f1 ih =>
    intro f2 i result h1 h2
    by_cases hi : i < points.length
    · cases f2 with
      | zero => omega
      | succ f2 =>
        rw [make_x_monotone_loop, make_x_monotone_loop, if_pos hi, if_pos hi]
        split
        · rfl
        · rename_i i' r' hb
          have := body_index hb
          exact ih f2 i' r' (by omega) (by omega)
    · cases f2 <;> simp [make_x_monotone_loop, hi]

/-- C12: on every chain the scan of `make_x_monotone` terminates. Every completed
iteration moves the index strictly forward; in Case B the index returned by
`skip_boundary_points_to_the_left` is `points.size()` or an edge index `j ≥ i`, and
the increment moves on to `j + 1`; `remove_edges_to_the_right` leaves a strictly
shorter deque; hence the budget of `points.length` iterations is never exhausted, any
larger budget gives the same outcome, and the call ends with a result or with an
access out of range. -/
theorem C12_scan_index_grows_and_terminates (points : List Point) (end_point : Point) :
    (∀ i result j result',
      make_x_monotone_body points end_point i result = .ok (j, result') → i < j) ∧
    (∀ i result j result', i < points.length →
      skip_boundary_points_to_the_left points i end_point result = .ok (j, result') →
      (j = points.length ∨ (i ≤ j ∧ j + 1 < points.length)) ∧
      ∀ pt, points[i]? = some pt → (∃ back, result.head? = some back ∧ pt.x < back.x) →
        is_boundary_turning_left pt result = .ok true →
        make_x_monotone_body points end_point i result = .ok (j + 1, result')) ∧
    (∀ stack x s stack', remove_edges_to_the_right stack x = .ok (s, stack') →
      stack'.length < stack.length) ∧
    (∀ fuel result, points.length ≤ fuel + 1 →
      make_x_monotone_loop points end_point fuel 1 result
        = make_x_monotone_loop points end_point points.length 1 result) ∧
    make_x_monotone points end_point ≠ .error .out_of_fuel ∧
    ((∃ out, make_x_monotone points end_point = .ok out) ∨
      make_x_monotone points end_point = .error .out_of_range) := by
  have hfuel : make_x_monotone points end_point ≠ .error .out_of_fuel := by
    unfold make_x_monotone
    split
    · simp
    · rename_i p0 hp0
      have := loop_never_out_of_fuel points end_point points.length 1 [p0] (by omega)
      split
      · rename_i e he
        intro h
        simp only [Except.error.injEq] at h
        subst h
        exact this he
      · simp
  refine ⟨fun i result j result' h => body_index h, ?_,
    fun stack x s stack' h => (remove_edges_shrinks h).2,
    fun fuel result h => loop_fuel_irrelevant points end_point fuel points.length 1 result h
      (by omega), hfuel, ?_⟩
  · intro i result j result' hi hs
    refine ⟨skip_index hi hs, ?_⟩
    rintro pt hpt ⟨back, hb, hlt⟩ ht
    cases result with
    | nil => simp at hb
    | cons b tl =>
      simp only [List.head?_cons, Option.some.injEq] at hb
      subst hb
      unfold make_x_monotone_body
      simp only [hpt, ge_iff_le, not_le.mpr hlt, if_false, ht, hs]
  · cases h : make_x_monotone points end_point with
    | ok out => exact Or.inl ⟨out, rfl⟩
    | error e =>
      cases e with
      | out_of_range => exact Or.inr rfl
      | out_of_fuel => exact absurd h hfuel

/-- Witness of C12: on the lower chain of the backward-notch pentagon the Case B
iteration at index 2 moves the index to 4, past the end of the chain. -/
theorem C12_scan_index_grows_and_terminates_witness :
    make_x_monotone_body [⟨0, 0⟩, ⟨3, 0⟩, ⟨1, 1⟩] ⟨3, 2⟩ 2 [⟨3, 0⟩, ⟨0, 0⟩]
      = .ok (4, [⟨3, 2⟩, ⟨3, 0⟩, ⟨0, 0⟩]) ∧ 2 < 4 := by
  have h : make_x_monotone_body [⟨0, 0⟩, ⟨3, 0⟩, ⟨1, 1⟩] ⟨3, 2⟩ 2 [⟨3, 0⟩, ⟨0, 0⟩]
      = .ok (4, [⟨3, 2⟩, ⟨3, 0⟩, ⟨0, 0⟩]) := by
    norm_num [make_x_monotone_body, is_boundary_turning_left,
      skip_boundary_points_to_the_left, find_next_edge_intersecting_x, find_next_loop,
      size_minus_one, invalid_index, edge_point_at_x]
  exact ⟨h, (C12_scan_index_grows_and_terminates [⟨0, 0⟩, ⟨3, 0⟩, ⟨1, 1⟩] ⟨3, 2⟩).1 _ _ _ _ h⟩

/-- C13 (code defect): on the chain `[(0,0),(2,0),(1,1),(2,0),(3,0)]` with the deque
`[(0,0),(2,0)]` and start index 2, the first straddling edge is the one at index 3,
from `(2,0)` to `(3,0)`; its intersection with the line `x = 2` is `(2,0)`, the tail
of the deque, and line 125 appends it all the same: the deque becomes
`[(0,0),(2,0),(2,0)]`. The polygon `[(0,0),(2,0),(1,1),(2,0),(3,0),(3,3),(0,3)]`
reaches this state, and its output holds `(2,0)` twice in a row. -/
theorem C13_found_edge_appends_duplicate_tail :
    find_next_edge_intersecting_x [⟨0, 0⟩, ⟨2, 0⟩, ⟨1, 1⟩, ⟨2, 0⟩, ⟨3, 0⟩] 2 2 = .ok (some 3) ∧
    edge_point_at_x ⟨2, 0⟩ ⟨3, 0⟩ 2 = ⟨2, 0⟩ ∧
    skip_boundary_points_to_the_left [⟨0, 0⟩, ⟨2, 0⟩, ⟨1, 1⟩, ⟨2, 0⟩, ⟨3, 0⟩] 2 ⟨3, 3⟩
        [⟨2, 0⟩, ⟨0, 0⟩]
      = .ok (3, [⟨2, 0⟩, ⟨2, 0⟩, ⟨0, 0⟩]) ∧
    x_monotone_from_polygon [⟨0, 0⟩, ⟨2, 0⟩, ⟨1, 1⟩, ⟨2, 0⟩, ⟨3, 0⟩, ⟨3, 3⟩, ⟨0, 3⟩]
      = .ok [⟨0, 0⟩, ⟨2, 0⟩, ⟨2, 0⟩, ⟨3, 0⟩, ⟨3, 3⟩, ⟨0, 3⟩] := by
  refine ⟨?_, ?_, ?_, ?_⟩
  · norm_num [find_next_edge_intersecting_x, find_next_loop, size_minus_one]
  · norm_num [edge_point_at_x]
  · norm_num [skip_boundary_points_to_the_left, find_next_edge_intersecting_x,
      find_next_loop, size_minus_one, edge_point_at_x]
  · norm_num [x_monotone_from_polygon, split_into_lower_and_upper_boundary, find_extremes,
      range, negate, make_x_monotone, make_x_monotone_loop, make_x_monotone_body,
      is_boundary_turning_left, skip_boundary_points_to_the_left,
      find_next_edge_intersecting_x, find_next_loop, size_minus_one, invalid_index,
      edge_point_at_x]

/-- C14: for a deque of at least 2 points with non-decreasing x (in storage order) and
an `x` with `stack[0].x <= x < stack.back().x`, `remove_edges_to_the_right` leaves the
non-empty proper prefix `pre ++ [f]` of the deque and returns the point `s` that
followed `f`; `f.x <= x < s.x`, and every point from `s` on lies right of `x`, so `f`
is the last point of the deque with x-coordinate at most `x`. The deque is given tail
first; `stack.reverse` is its storage order. -/
theorem C14_pop_leaves_straddling_edge (stack : List Point) (x : ℚ) (first back : Point)
    (h2 : 2 ≤ stack.length) (hs : x_non_decreasing stack.reverse)
    (hfirst : stack.getLast? = some first) (hback : stack.head? = some back)
    (hx1 : first.x ≤ x) (hx2 : x < back.x) :
    ∃ s f pre post, stack.reverse = pre ++ f :: s :: post ∧
      remove_edges_to_the_right stack x = .ok (s, (pre ++ [f]).reverse) ∧
      f.x ≤ x ∧ x < s.x ∧ ∀ q ∈ s :: post, x < q.x := by
  cases stack with
  | nil => simp at h2
  | cons second rest =>
    simp only [List.head?_cons, Option.some.injEq] at hback
    subst hback
    cases rest with
    | nil => simp at h2
    | cons below rest' =>
      rw [List.getLast?_cons_cons] at hfirst
      obtain ⟨s2, b, r, heq, ⟨t, ht⟩, hbx, hsx⟩ :=
        remove_edges_loop_spec x first hx1 (below :: rest') second hfirst hx2
      have hrev : (second :: below :: rest').reverse = r.reverse ++ b :: s2 :: t.reverse := by
        rw [← ht]; simp
      refine ⟨s2, b, r.reverse, t.reverse, hrev, ?_, hbx, hsx, ?_⟩
      · simp only [remove_edges_to_the_right, heq, List.reverse_append, List.reverse_cons,
          List.reverse_nil, List.nil_append, List.reverse_reverse, List.singleton_append]
      · unfold x_non_decreasing at hs
        rw [hrev, List.pairwise_append] at hs
        have h1 := (List.pairwise_cons.mp hs.2.1).2
        intro q hq
        rcases List.mem_cons.mp hq with h | h
        · rw [h]; exact hsx
        · exact lt_of_lt_of_le hsx ((List.pairwise_cons.mp h1).1 q h)

/-- Witness of C14: popping `[(0,0),(1,1),(2,0)]` at `x = 1` leaves `[(0,0),(1,1)]` and
returns `(2,0)`. -/
theorem C14_pop_leaves_straddling_edge_witness :
    2 ≤ ([⟨2, 0⟩, ⟨1, 1⟩, ⟨0, 0⟩] : List Point).length ∧
    x_non_decreasing ([⟨2, 0⟩, ⟨1, 1⟩, ⟨0, 0⟩] : List Point).reverse ∧
    ∃ s f pre post, ([⟨2, 0⟩, ⟨1, 1⟩, ⟨0, 0⟩] : List Point).reverse = pre ++ f :: s :: post ∧
      remove_edges_to_the_right [⟨2, 0⟩, ⟨1, 1⟩, ⟨0, 0⟩] 1 = .ok (s, (pre ++ [f]).reverse) ∧
      f.x ≤ 1 ∧ 1 < s.x ∧ ∀ q ∈ s :: post, 1 < q.x :=
  ⟨by decide, by decide,
    C14_pop_leaves_straddling_edge [⟨2, 0⟩, ⟨1, 1⟩, ⟨0, 0⟩] 1 ⟨0, 0⟩ ⟨2, 0⟩ (by decide)
      (by decide) rfl rfl (by norm_num) (by norm_num)⟩

theorem no_straddle_iff {points : List Point} {x : ℚ} {i j : Nat} :
    no_straddle points x i j ↔ ∀ k, i ≤ k → k < j → ¬ straddles points x k := by
  constructor
  · rintro h k h1 h2 ⟨f, s, hf, hs, hc⟩
    exact h k h1 h2 f s hf hs ⟨hc.1, hc.2⟩
  · intro h k h1 h2 f s hf hs hc
    exact h k h1 h2 ⟨f, s, hf, hs, hc.1, hc.2⟩

/-- C15: on a non-empty chain `find_next_edge_intersecting_x` returns the index `j`
exactly when `j` is the least index with `start <= j`, `j + 1 < |points|` and
`points[j].x <= x < points[j+1].x`, and it returns the sentinel `invalid_index` exactly
when there is no such index; it reads inside the vector. -/
theorem C15_find_next_returns_first_straddling_edge (points : List Point) (start : Nat)
    (x : ℚ) (hne : points ≠ []) :
    (∀ j, find_next_edge_intersecting_x points start x = .ok (some j) ↔
      (start ≤ j ∧ j + 1 < points.length ∧ straddles points x j ∧
        ∀ k, start ≤ k → k < j → ¬ straddles points x k)) ∧
    (find_next_edge_intersecting_x points start x = .ok invalid_index ↔
      ¬ ∃ j, start ≤ j ∧ j + 1 < points.length ∧ straddles points x j) := by
  rcases find_next_spec points x start hne with
    ⟨j0, f, s, h1, h2, h3, h4, h5, h6, h7, h8⟩ | ⟨h1, h2⟩
  · have hst : straddles points x j0 := ⟨f, s, h4, h5, h6, h7⟩
    rw [no_straddle_iff] at h8
    constructor
    · intro j
      rw [h1]
      constructor
      · intro h
        simp only [Except.ok.injEq, Option.some.injEq] at h
        subst h
        exact ⟨h2, h3, hst, h8⟩
      · rintro ⟨g1, g2, g3, g4⟩
        have : j0 = j := by
          rcases lt_trichotomy j0 j with h | h | h
          · exact absurd hst (g4 j0 h2 h)
          · exact h
          · exact absurd g3 (h8 j g1 h)
        rw [this]
    · rw [h1]
      constructor
      · intro h; simp [invalid_index] at h
      · intro h; exact absurd ⟨j0, h2, h3, hst⟩ h
  · rw [no_straddle_iff] at h2
    constructor
    · intro j
      rw [h1]
      constructor
      · intro h; simp at h
      · rintro ⟨g1, g2, g3, -⟩
        exact absurd g3 (h2 j g1 (by omega))
    · rw [h1]
      constructor
      · rintro - ⟨j, g1, g2, g3⟩
        exact h2 j g1 (by omega) g3
      · intro _; rfl

/-- Witness of C15: on the lower chain of the self-touching polygon the search from
index 2 at `x = 2` returns the edge index 3. -/
theorem C15_find_next_returns_first_straddling_edge_witness :
    ([⟨0, 0⟩, ⟨2, 0⟩, ⟨1, 1⟩, ⟨2, 0⟩, ⟨3, 0⟩] : List Point) ≠ [] ∧
    find_next_edge_intersecting_x [⟨0, 0⟩, ⟨2, 0⟩, ⟨1, 1⟩, ⟨2, 0⟩, ⟨3, 0⟩] 2 2 = .ok (some 3) ∧
    straddles [⟨0, 0⟩, ⟨2, 0⟩, ⟨1, 1⟩, ⟨2, 0⟩, ⟨3, 0⟩] 2 3 := by
  have h : find_next_edge_intersecting_x [⟨0, 0⟩, ⟨2, 0⟩, ⟨1, 1⟩, ⟨2, 0⟩, ⟨3, 0⟩] 2 2
      = .ok (some 3) := by
    norm_num [find_next_edge_intersecting_x, find_next_loop, size_minus_one]
  exact ⟨by simp, h,
    (((C15_find_next_returns_first_straddling_edge
      [⟨0, 0⟩, ⟨2, 0⟩, ⟨1, 1⟩, ⟨2, 0⟩, ⟨3, 0⟩] 2 2 (by simp)).1 3).mp h).2.2.1⟩

/-- C16: `edge_point_at_x` never divides by zero (the version with a fallible division
always has a result, the same one); when `second.x = first.x` it returns `first`;
otherwise its result has x-coordinate exactly `x`, is collinear with `first` and
`second`, and is the only such point; and when `first.x <= x <= second.x` the result
lies on the segment, with interpolation parameter in `[0, 1]`. -/
theorem C16_edge_point_at_x_is_line_point (first second : Point) (x : ℚ) :
    edge_point_at_x_checked first second x = some (edge_point_at_x first second x) ∧
    (second.x = first.x → edge_point_at_x first second x = first) ∧
    (second.x ≠ first.x →
      (edge_point_at_x first second x).x = x ∧
      collinear first second (edge_point_at_x first second x) ∧
      ∀ q : Point, q.x = x → collinear first second q → q = edge_point_at_x first second x) ∧
    (first.x ≤ x → x ≤ second.x → on_segment first second (edge_point_at_x first second x)) := by
  refine ⟨?_, fun h => edge_point_vertical x h, ?_, ?_⟩
  · unfold edge_point_at_x_checked edge_point_at_x checked_div
    by_cases hv : second.x - first.x = 0
    · simp [hv]
    · simp [hv]
  · intro hne
    have hv : second.x - first.x ≠ 0 := sub_ne_zero.mpr hne
    have hx : (edge_point_at_x first second x).x = x := edge_point_x x (Ne.symm hne)
    have hy : (edge_point_at_x first second x).y
        = first.y + (second.y - first.y) * ((x - first.x) / (second.x - first.x)) := by
      simp only [edge_point_at_x, hv, if_false]
    refine ⟨hx, ?_, ?_⟩
    · unfold collinear
      rw [hx, hy]
      field_simp
      ring
    · intro q hqx hq
      unfold collinear at hq
      have hqy : q.y = first.y + (second.y - first.y) * ((x - first.x) / (second.x - first.x)) := by
        rw [hqx] at hq
        field_simp
        linear_combination hq
      cases q
      cases hp : edge_point_at_x first second x
      rw [hp] at hx hy
      simp only at hqx hqy hx hy
      rw [Point.mk.injEq]
      exact ⟨hqx.trans hx.symm, hqy.trans hy.symm⟩
  · intro h1 h2
    by_cases hv : second.x = first.x
    · rw [edge_point_vertical x hv]
      exact on_segment_left _ _
    · exact edge_point_on_segment h1 h2 (lt_of_le_of_ne (le_trans h1 h2) (Ne.symm hv))

/-- Witness of C16: on the edge from `(1,1)` to `(3,2)` the point at `x = 3` is `(3,2)`;
on the vertical edge from `(1,1)` to `(1,5)` the result is `(1,1)`. -/
theorem C16_edge_point_at_x_is_line_point_witness :
    (edge_point_at_x ⟨1, 1⟩ ⟨3, 2⟩ 3).x = 3 ∧
    collinear ⟨1, 1⟩ ⟨3, 2⟩ (edge_point_at_x ⟨1, 1⟩ ⟨3, 2⟩ 3) ∧
    on_segment ⟨1, 1⟩ ⟨3, 2⟩ (edge_point_at_x ⟨1, 1⟩ ⟨3, 2⟩ 3) ∧
    edge_point_at_x ⟨1, 1⟩ ⟨1, 5⟩ 2 = ⟨1, 1⟩ :=
  ⟨((C16_edge_point_at_x_is_line_point ⟨1, 1⟩ ⟨3, 2⟩ 3).2.2.1 (by norm_num)).1,
    ((C16_edge_point_at_x_is_line_point ⟨1, 1⟩ ⟨3, 2⟩ 3).2.2.1 (by norm_num)).2.1,
    (C16_edge_point_at_x_is_line_point ⟨1, 1⟩ ⟨3, 2⟩ 3).2.2.2 (by norm_num) (by norm_num),
    (C16_edge_point_at_x_is_line_point ⟨1, 1⟩ ⟨1, 5⟩ 2).2.1 rfl⟩

/-- Under the precondition of the call sites the scan is guarded. -/
theorem guarded_scan_of_chain_ok {points : List Point} {end_point p0 : Point}
    (hc : chain_ok points end_point p0) : guarded_scan points end_point p0 := by
  intro i result hreach
  obtain ⟨k, inv, hk⟩ := scan_reaches_inv hc hreach
  refine ⟨inv.last, ?_, ?_⟩
  · intro hi
    rw [hk hi] at inv
    obtain ⟨j, r', h1, -, -⟩ := body_spec hc inv hi
    exact ⟨j, r', h1⟩
  · intro pt back hpt hb hlt
    cases result with
    | nil => simp at hb
    | cons b tl =>
      simp only [List.head?_cons, Option.some.injEq] at hb
      subst hb
      cases tl with
      | nil =>
        have h0 := inv.last
        simp only [List.getLast?_singleton, Option.some.injEq] at h0
        have := hc.min _ (List.getElem?_mem hpt)
        rw [h0] at hlt
        exact absurd hlt (not_lt.mpr this)
      | cons first rest =>
        refine ⟨by simp, ⟨_, rfl⟩, fun _ => ?_⟩
        have hlast : (first :: rest).getLast? = some p0 := by
          rw [← inv.last, List.getLast?_cons_cons]
        obtain ⟨s2, f, r, heq, -, -, -⟩ := remove_edges_loop_spec pt.x p0
          (hc.min pt (List.getElem?_mem hpt)) (first :: rest) b hlast hlt
        exact ⟨s2, f, r, by simp only [remove_edges_to_the_right, heq]⟩

/-- C17: for every input with at least 2 vertices, not all identical, the whole run of
`x_monotone_from_polygon` makes no access out of range: both chains are non-empty (they
have first points `l0` and `u0`), the call returns, and both scans are guarded: in
every state the front of the deque is the first point of the chain, every iteration
completes, and `is_boundary_turning_left` and `remove_edges_to_the_right` are reached
only with at least 2 points in the deque. -/
theorem C17_accesses_are_guarded (points : List Point) (h2 : 2 ≤ points.length)
    (hn : not_all_identical points) :
    ∃ l0 u0 out,
      (split_into_lower_and_upper_boundary points).1.head? = some l0 ∧
      (split_into_lower_and_upper_boundary points).2.head? = some u0 ∧
      x_monotone_from_polygon points = .ok out ∧
      guarded_scan (split_into_lower_and_upper_boundary points).1 u0 l0 ∧
      guarded_scan ((split_into_lower_and_upper_boundary points).2.map negate) (negate l0)
        (negate u0) := by
  obtain ⟨l0, u0, L, U, hlh, huh, -, -, -, -, hc1, hc2, -, -, hout⟩ :=
    polygon_spec points h2 hn
  exact ⟨l0, u0, _, hlh, huh, hout, guarded_scan_of_chain_ok hc1, guarded_scan_of_chain_ok hc2⟩

/-- Witness of C17 on the backward-notch pentagon. -/
theorem C17_accesses_are_guarded_witness :
    2 ≤ ([⟨0, 0⟩, ⟨3, 0⟩, ⟨1, 1⟩, ⟨3, 2⟩, ⟨0, 3⟩] : List Point).length ∧
    not_all_identical [⟨0, 0⟩, ⟨3, 0⟩, ⟨1, 1⟩, ⟨3, 2⟩, ⟨0, 3⟩] ∧
    ∃ out, x_monotone_from_polygon [⟨0, 0⟩, ⟨3, 0⟩, ⟨1, 1⟩, ⟨3, 2⟩, ⟨0, 3⟩] = .ok out := by
  refine ⟨by decide, by decide, ?_⟩
  obtain ⟨_, _, out, -, -, h, -⟩ :=
    C17_accesses_are_guarded [⟨0, 0⟩, ⟨3, 0⟩, ⟨1, 1⟩, ⟨3, 2⟩, ⟨0, 3⟩] (by decide) (by decide)
  exact ⟨out, h⟩

/-- The scan on the negated vertices exchanges the roles of the two iterators. -/
theorem find_extremes_negate : ∀ (rest : List Point) (k : Nat) (a b : Nat × Point),
    find_extremes (rest.map negate) k (a.1, negate a.2) (b.1, negate b.2)
      = (((find_extremes rest k b a).2.1, negate (find_extremes rest k b a).2.2),
         ((find_extremes rest k b a).1.1, negate (find_extremes rest k b a).1.2)) := by
  intro rest
  induction rest with
  | nil => intro k a b; simp [find_extremes]
  | cons p rest ih =>
    intro k a b
    simp only [List.map_cons, find_extremes]
    have ha : (if (negate p).x < (negate a.2).x ∨
          ((negate p).x = (negate a.2).x ∧ (negate p).y < (negate a.2).y)
        then (k, negate p) else (a.1, negate a.2))
        = ((if p.x > a.2.x ∨ (p.x = a.2.x ∧ p.y > a.2.y) then (k, p) else a).1,
           negate (if p.x > a.2.x ∨ (p.x = a.2.x ∧ p.y > a.2.y) then (k, p) else a).2) := by
      simp only [negate, neg_lt_neg_iff, neg_inj, gt_iff_lt]
      split <;> rfl
    have hb : (if (negate p).x > (negate b.2).x ∨
          ((negate p).x = (negate b.2).x ∧ (negate p).y > (negate b.2).y)
        then (k, negate p) else (b.1, negate b.2))
        = ((if p.x < b.2.x ∨ (p.x = b.2.x ∧ p.y < b.2.y) then (k, p) else b).1,
           negate (if p.x < b.2.x ∨ (p.x = b.2.x ∧ p.y < b.2.y) then (k, p) else b).2) := by
      simp only [negate, gt_iff_lt, neg_lt_neg_iff, neg_inj]
      split <;> rfl
    rw [ha, hb, ih]

theorem extremes_index_negate (points : List Point) :
    lowest_left_index (points.map negate) = highest_right_index points ∧
    highest_right_index (points.map negate) = lowest_left_index points := by
  cases points with
  | nil => exact ⟨rfl, rfl⟩
  | cons p0 rest =>
    have h := find_extremes_negate rest 1 (0, p0) (0, p0)
    simp only [lowest_left_index, highest_right_index, List.map_cons]
    simp only at h
    rw [h]
    exact ⟨rfl, rfl⟩

/-- The split of the negated polygon is the split of the polygon with the two chains
exchanged and negated. -/
theorem split_negate (points : List Point) :
    split_into_lower_and_upper_boundary (points.map negate)
      = ((split_into_lower_and_upper_boundary points).2.map negate,
         (split_into_lower_and_upper_boundary points).1.map negate) := by
  by_cases hne : points = []
  · subst hne; rfl
  · have hne' : points.map negate ≠ [] := by
      intro h; exact hne (List.map_eq_nil_iff.mp h)
    obtain ⟨h1, h2⟩ := extremes_index_negate points
    rw [split_eq _ hne', split_eq _ hne, h1, h2]
    simp only [← List.map_drop, ← List.map_take, ← List.map_append]
    congr 1
    · split <;> rfl
    · split <;> rfl

/-- C18: for every input `P` with at least 2 vertices, not all identical, with
`x_monotone_from_polygon P = L ++ U'`, where `L` is the monotonized lower chain and
`U' = U.map negate` the negated-back monotonized upper chain, the output for the
negated input is `neg U' ++ neg L`: negating the input exchanges the two chains and
negates the output. -/
theorem C18_negation_swaps_chains (points : List Point) (h2 : 2 ≤ points.length)
    (hn : not_all_identical points) :
    ∃ l0 u0 L U,
      (split_into_lower_and_upper_boundary points).1.head? = some l0 ∧
      (split_into_lower_and_upper_boundary points).2.head? = some u0 ∧
      make_x_monotone (split_into_lower_and_upper_boundary points).1 u0 = .ok L ∧
      make_x_monotone ((split_into_lower_and_upper_boundary points).2.map negate) (negate l0)
        = .ok U ∧
      x_monotone_from_polygon points = .ok (L ++ U.map negate) ∧
      x_monotone_from_polygon (points.map negate)
        = .ok ((U.map negate).map negate ++ L.map negate) := by
  obtain ⟨l0, u0, L, U, hlh, huh, -, -, -, -, -, -, hL, hU, hout⟩ := polygon_spec points h2 hn
  refine ⟨l0, u0, L, U, hlh, huh, hL, hU, hout, ?_⟩
  have hlt : ¬ (points.map negate).length < 2 := by rw [List.length_map]; omega
  have hu0 : ((split_into_lower_and_upper_boundary points).1.map negate)[0]?
      = some (negate l0) := by
    rw [← List.head?_eq_getElem?, List.head?_map, hlh]; rfl
  have hl0 : ((split_into_lower_and_upper_boundary points).2.map negate)[0]?
      = some (negate u0) := by
    rw [← List.head?_eq_getElem?, List.head?_map, huh]; rfl
  simp only [x_monotone_from_polygon, hlt, if_false, split_negate, hu0, hl0, hU,
    map_negate_negate, negate_negate, hL]

/-- Witness of C18 on the square: the negated square `[(0,0),(-2,0),(-2,-2),(0,-2)]` is
returned from its lowest-left vertex `(-2,-2)` on. -/
theorem C18_negation_swaps_chains_witness :
    2 ≤ ([⟨0, 0⟩, ⟨2, 0⟩, ⟨2, 2⟩, ⟨0, 2⟩] : List Point).length ∧
    not_all_identical [⟨0, 0⟩, ⟨2, 0⟩, ⟨2, 2⟩, ⟨0, 2⟩] ∧
    ∃ L U, x_monotone_from_polygon [⟨0, 0⟩, ⟨2, 0⟩, ⟨2, 2⟩, ⟨0, 2⟩] = .ok (L ++ U) ∧
      x_monotone_from_polygon (([⟨0, 0⟩, ⟨2, 0⟩, ⟨2, 2⟩, ⟨0, 2⟩] : List Point).map negate)
        = .ok (U.map negate ++ L.map negate) := by
  refine ⟨by decide, by decide, ?_⟩
  obtain ⟨_, _, L, U, -, -, -, -, h1, h2⟩ :=
    C18_negation_swaps_chains [⟨0, 0⟩, ⟨2, 0⟩, ⟨2, 2⟩, ⟨0, 2⟩] (by decide) (by decide)
  exact ⟨L, U.map negate, h1, h2⟩

/-- C19: for every input with at least 2 vertices, not all identical, the first point of
the output is the vertex at the lowest-left index, the lexicographic minimum of the
input, and the point at index `|L|`, the first of the upper part, is the vertex at the
highest-right index, the lexicographic maximum; both are vertices of the input. -/
theorem C19_output_anchored_at_extremes (points : List Point) (h2 : 2 ≤ points.length)
    (hn : not_all_identical points) :
    ∃ l0 u0 L U,
      make_x_monotone (split_into_lower_and_upper_boundary points).1 u0 = .ok L ∧
      make_x_monotone ((split_into_lower_and_upper_boundary points).2.map negate) (negate l0)
        = .ok U ∧
      x_monotone_from_polygon points = .ok (L ++ U.map negate) ∧
      (L ++ U.map negate)[0]? = some l0 ∧
      (L ++ U.map negate)[L.length]? = some u0 ∧
      points[lowest_left_index points]? = some l0 ∧
      points[highest_right_index points]? = some u0 ∧
      l0 ∈ points ∧ u0 ∈ points ∧
      (∀ p ∈ points, l0.x < p.x ∨ (l0.x = p.x ∧ l0.y ≤ p.y)) ∧
      (∀ p ∈ points, p.x < u0.x ∨ (p.x = u0.x ∧ p.y ≤ u0.y)) := by
  obtain ⟨l0, u0, L, U, -, -, hl, hu, hmin, hmax, hc1, hc2, hL, hU, hout⟩ :=
    polygon_spec points h2 hn
  obtain ⟨L', hL', hLh, -⟩ := make_x_monotone_spec hc1
  obtain ⟨U', hU', hUh, -⟩ := make_x_monotone_spec hc2
  rw [hL] at hL'
  rw [hU] at hU'
  cases hL'
  cases hU'
  refine ⟨l0, u0, L, U, hL, hU, hout, ?_, ?_, hl, hu, List.getElem?_mem hl,
    List.getElem?_mem hu, hmin, hmax⟩
  · have hne : L ≠ [] := by intro h0; rw [h0] at hLh; simp at hLh
    rw [List.getElem?_append_left (List.length_pos.mpr hne), ← List.head?_eq_getElem?]
    exact hLh
  · rw [List.getElem?_append_right (le_refl _), Nat.sub_self, ← List.head?_eq_getElem?,
      List.head?_map, hUh]
    simp [negate_negate]

/-- Witness of C19 on the backward-notch pentagon: the output starts at `(0,0)` and its
upper part starts at `(3,2)`. -/
theorem C19_output_anchored_at_extremes_witness :
    2 ≤ ([⟨0, 0⟩, ⟨3, 0⟩, ⟨1, 1⟩, ⟨3, 2⟩, ⟨0, 3⟩] : List Point).length ∧
    not_all_identical [⟨0, 0⟩, ⟨3, 0⟩, ⟨1, 1⟩, ⟨3, 2⟩, ⟨0, 3⟩] ∧
    ∃ l0 u0 out, x_monotone_from_polygon [⟨0, 0⟩, ⟨3, 0⟩, ⟨1, 1⟩, ⟨3, 2⟩, ⟨0, 3⟩] = .ok out ∧
      out[0]? = some l0 ∧ l0 ∈ ([⟨0, 0⟩, ⟨3, 0⟩, ⟨1, 1⟩, ⟨3, 2⟩, ⟨0, 3⟩] : List Point) ∧
      u0 ∈ ([⟨0, 0⟩, ⟨3, 0⟩, ⟨1, 1⟩, ⟨3, 2⟩, ⟨0, 3⟩] : List Point) := by
  refine ⟨by decide, by decide, ?_⟩
  obtain ⟨l0, u0, L, U, -, -, h, h0, -, -, -, hl, hu, -⟩ :=
    C19_output_anchored_at_extremes [⟨0, 0⟩, ⟨3, 0⟩, ⟨1, 1⟩, ⟨3, 2⟩, ⟨0, 3⟩]
      (by decide) (by decide)
  exact ⟨l0, u0, _, h, h0, hl, hu⟩

end chal
